import Mathlib

/-!
# CBC engine of `aes-demo` (`main.go`)

A shallow embedding of the hand-built cipher-block-chaining engine:
`CBCEncrypter`, `CBCDecrypter`, their `CryptBlocks` methods and the
constructors `NewCBCEncrypter` / `NewCBCDecrypter`; and of the driver `main`
with the five reader functions it chooses from.

Modelling choices.

* A Go `byte` is a `Fin 256`; `^` on bytes is `bxor`.
* The caller's memory is one address space `Mem = Nat → Byte`; a Go slice is a
  window `Slice` (offset and length) into it, so `dst` and `src` may be the
  same window, overlapping windows or disjoint windows.
* The engine's private buffers `blk` and `work` are lists of bytes: they are
  allocated by the constructor and never handed out, so nothing aliases them.
* A call ends in an `Outcome`: it returns, or it panics (the state reached at
  the panic is kept, a Go caller can `recover` and look at it).
* The block primitive (`cipher.Block`) is a parameter: a block size and two
  functions on blocks. The ECB block mode built on it (package `ecb`, a
  library) is modelled after that library's `CryptBlocks`.
* A block size is positive wherever a theorem needs the loop to run: with
  `bs = 0` the Go expression `len(src) % bs` panics, and the model says so.
-/

namespace AesDemo

/-! ## Bytes, memory, slices -/

/-- A Go `byte`. -/
abbrev Byte := Fin 256

/-- The Go operator `^` on two bytes. -/
def bxor (a b : Byte) : Byte := ⟨(a.val ^^^ b.val) % 256, Nat.mod_lt _ (by decide)⟩

/-- Byte-wise `^` of two byte strings. -/
def xorBytes (a b : List Byte) : List Byte := List.zipWith bxor a b

/-- The memory the caller's slices point into. -/
abbrev Mem := Nat → Byte

/-- A Go slice header: a window of `len` bytes starting at address `off`. -/
structure Slice where
  off : Nat
  len : Nat
deriving DecidableEq, Repr

/-- The bytes `mem[off], …, mem[off+n-1]`. -/
def readN (mem : Mem) (off n : Nat) : List Byte :=
  (List.range n).map (fun i => mem (off + i))

/-- The contents of a slice. -/
def Slice.bytes (s : Slice) (mem : Mem) : List Byte := readN mem s.off s.len

/-- Memory after storing the byte string `l` at address `off`. -/
def writeN (mem : Mem) (off : Nat) (l : List Byte) : Mem :=
  fun a => if off ≤ a then (l[a - off]?).getD (mem a) else mem a

/-- The Go re-slicing `s[n:]` (the caller checks `n ≤ len(s)`). -/
def Slice.drop (s : Slice) (n : Nat) : Slice := ⟨s.off + n, s.len - n⟩

/-- Two windows that share no address. -/
def Slice.Disjoint (a b : Slice) : Prop :=
  a.off + a.len ≤ b.off ∨ b.off + b.len ≤ a.off

instance (a b : Slice) : Decidable (a.Disjoint b) := by
  unfold Slice.Disjoint; infer_instance

/-! ## Panics and outcomes -/

/-- The ways a call can panic. -/
inductive Panic where
  /-- Go `panic("crypto/cipher: input not full blocks")`: the spec's `InvalidLength`. -/
  | inputNotFullBlocks
  /-- Go `panic("crypto/cipher: output smaller than input")`: the spec's `BufferTooSmall`. -/
  | outputSmallerThanInput
  /-- Go runtime error: integer divide by zero (`len(src) % bs` with `bs = 0`). -/
  | divideByZero
  /-- Go runtime error: index out of range. -/
  | indexOutOfRange
  /-- Go runtime error: slice bounds out of range. -/
  | sliceBoundsOutOfRange
  /-- Go `panic("cipher.NewOFB: IV length must equal block size")` and the same panic of
  `cipher.NewCFBEncrypter`, `cipher.NewCFBDecrypter` and `cipher.NewCTR`. -/
  | ivLength
deriving DecidableEq, Repr

/-- How a call ends. `outOfFuel` stands for a loop that was cut off by the
model; the theorems show it never happens. -/
inductive Outcome (σ : Type) where
  | returned (s : σ)
  | panicked (p : Panic) (s : σ)
  | outOfFuel

/-- Sequencing: run `f` on the state if the first part returned. -/
def Outcome.andThen {σ : Type} (o : Outcome σ) (f : σ → Outcome σ) : Outcome σ :=
  match o with
  | .returned s => f s
  | .panicked p s => .panicked p s
  | .outOfFuel => .outOfFuel

/-- Keep only part of the state. -/
def Outcome.map {σ τ : Type} (g : σ → τ) (o : Outcome σ) : Outcome τ :=
  match o with
  | .returned s => .returned (g s)
  | .panicked p s => .panicked p (g s)
  | .outOfFuel => .outOfFuel

/-- The counted loop `for i := lo; i < lo + k; i++ { body }`. -/
def forLoop {σ : Type} (body : Nat → σ → Outcome σ) : Nat → Nat → σ → Outcome σ
  | 0, _, s => .returned s
  | k + 1, i, s => (body i s).andThen (forLoop body k (i + 1))

/-! ## The block primitive and the ECB block mode (libraries, taken as parameters) -/

/-- A `cipher.Block`: a block size and two functions from blocks to blocks. -/
structure Block where
  BlockSize : Nat
  Encrypt : List Byte → List Byte
  Decrypt : List Byte → List Byte
  Encrypt_length : ∀ b : List Byte, b.length = BlockSize → (Encrypt b).length = BlockSize
  Decrypt_length : ∀ b : List Byte, b.length = BlockSize → (Decrypt b).length = BlockSize

/-- The `cipher.BlockMode` that package `ecb` builds on a `cipher.Block`:
`crypt` is the primitive's `Encrypt` or `Decrypt`. -/
structure BlockMode where
  blockSize : Nat
  crypt : List Byte → List Byte
  crypt_length : ∀ b : List Byte, b.length = blockSize → (crypt b).length = blockSize

/-- Go `ecb.NewECBEncrypter`. -/
def NewECBEncrypter (cphr : Block) : BlockMode :=
  ⟨cphr.BlockSize, cphr.Encrypt, cphr.Encrypt_length⟩

/-- Go `ecb.NewECBDecrypter`. -/
def NewECBDecrypter (cphr : Block) : BlockMode :=
  ⟨cphr.BlockSize, cphr.Decrypt, cphr.Decrypt_length⟩

/-- The block-by-block loop of the ECB mode over `src`. -/
def BlockMode.cryptEach (x : BlockMode) : Nat → List Byte → List Byte
  | 0, _ => []
  | fuel + 1, src =>
    if 0 < src.length then
      x.crypt (src.take x.blockSize) ++ x.cryptEach fuel (src.drop x.blockSize)
    else []

/-- The ECB mode's `CryptBlocks(dst, src)` on two buffers that do not overlap:
the new contents of `dst`, or the panic. -/
def BlockMode.CryptBlocks (x : BlockMode) (dst src : List Byte) : Except Panic (List Byte) :=
  if x.blockSize = 0 then .error .divideByZero
  else if src.length % x.blockSize ≠ 0 then .error .inputNotFullBlocks
  else if dst.length < src.length then .error .outputSmallerThanInput
  else .ok (x.cryptEach src.length src ++ dst.drop src.length)

/-! ## The engines -/

/-- Go `type CBCEncrypter struct { ecb cipher.BlockMode; blk []byte; work []byte }`. -/
structure CBCEncrypter where
  ecb : BlockMode
  blk : List Byte
  work : List Byte

/-- Go `type CBCDecrypter struct { ecb cipher.BlockMode; blk []byte; work []byte }`. -/
structure CBCDecrypter where
  ecb : BlockMode
  blk : List Byte
  work : List Byte

/-- Go `func (c *CBCEncrypter) BlockSize() int`. -/
def CBCEncrypter.BlockSize (c : CBCEncrypter) : Nat := c.ecb.blockSize

/-- Go `func (c *CBCDecrypter) BlockSize() int`. -/
def CBCDecrypter.BlockSize (c : CBCDecrypter) : Nat := c.ecb.blockSize

/-- Go `NewCBCEncrypter`: `work` is `bs` zero bytes, `blk` is a copy of `iv`
(`append` onto an empty slice), whatever the length of `iv`. -/
def NewCBCEncrypter (cphr : Block) (iv : List Byte) : CBCEncrypter :=
  { ecb := NewECBEncrypter cphr
    blk := [] ++ iv
    work := List.replicate cphr.BlockSize 0 }

/-- Go `NewCBCDecrypter`: as `NewCBCEncrypter`, on the decrypting ECB mode. -/
def NewCBCDecrypter (cphr : Block) (iv : List Byte) : CBCDecrypter :=
  { ecb := NewECBDecrypter cphr
    blk := [] ++ iv
    work := List.replicate cphr.BlockSize 0 }

/-- The state a `CryptBlocks` call works on: the engine, the caller's memory
and the two local slice variables. -/
structure Machine (E : Type) where
  c : E
  mem : Mem
  dst : Slice
  src : Slice

/-- What the caller sees of a machine: the engine and the memory. -/
def Machine.seen {E : Type} (s : Machine E) : E × Mem := (s.c, s.mem)

/-! ### `CBCEncrypter.CryptBlocks` -/

/-- The statement `c.work[i] = c.blk[i] ^ src[i]`. -/
def CBCEncrypter.xorStep (i : Nat) (s : Machine CBCEncrypter) : Outcome (Machine CBCEncrypter) :=
  if i < s.c.blk.length ∧ i < s.src.len ∧ i < s.c.work.length then
    .returned { s with
      c := { s.c with work := s.c.work.set i (bxor (s.c.blk.getD i 0) (s.mem (s.src.off + i))) } }
  else .panicked .indexOutOfRange s

/-- The statement `c.ecb.CryptBlocks(c.blk, c.work)`. -/
def CBCEncrypter.ecbStep (s : Machine CBCEncrypter) : Outcome (Machine CBCEncrypter) :=
  match s.c.ecb.CryptBlocks s.c.blk s.c.work with
  | .ok blk => .returned { s with c := { s.c with blk := blk } }
  | .error p => .panicked p s

/-- The statement `dst[i] = c.blk[i]`. -/
def CBCEncrypter.copyStep (i : Nat) (s : Machine CBCEncrypter) : Outcome (Machine CBCEncrypter) :=
  if i < s.c.blk.length ∧ i < s.dst.len then
    .returned { s with mem := Function.update s.mem (s.dst.off + i) (s.c.blk.getD i 0) }
  else .panicked .indexOutOfRange s

/-- The statements `src = src[bs:]; dst = dst[bs:]`. -/
def advance {E : Type} (bs : Nat) (s : Machine E) : Outcome (Machine E) :=
  if bs ≤ s.src.len then
    if bs ≤ s.dst.len then
      .returned { s with src := s.src.drop bs, dst := s.dst.drop bs }
    else .panicked .sliceBoundsOutOfRange { s with src := s.src.drop bs }
  else .panicked .sliceBoundsOutOfRange s

/-- One pass through the body of the `for len(src) > 0` loop of the encrypter. -/
def CBCEncrypter.iter (bs : Nat) (s : Machine CBCEncrypter) : Outcome (Machine CBCEncrypter) :=
  ((((forLoop CBCEncrypter.xorStep bs 0 s).andThen
    CBCEncrypter.ecbStep).andThen
    (forLoop CBCEncrypter.copyStep bs 0)).andThen
    (advance bs))

/-- The loop `for len(src) > 0 { … }` of the encrypter. -/
def CBCEncrypter.loop (bs : Nat) : Nat → Machine CBCEncrypter → Outcome (Machine CBCEncrypter)
  | 0, s => if 0 < s.src.len then .outOfFuel else .returned s
  | fuel + 1, s =>
    if 0 < s.src.len then (CBCEncrypter.iter bs s).andThen (CBCEncrypter.loop bs fuel)
    else .returned s

/-- Go `func (c *CBCEncrypter) CryptBlocks(dst, src []byte)`. Every pass of the
loop takes `bs ≥ 1` bytes off `src`, so `len(src)` passes are enough. -/
def CBCEncrypter.CryptBlocks (c : CBCEncrypter) (mem : Mem) (dst src : Slice) :
    Outcome (CBCEncrypter × Mem) :=
  let bs := c.BlockSize
  if bs = 0 then .panicked .divideByZero (c, mem)
  else if src.len % bs ≠ 0 then .panicked .inputNotFullBlocks (c, mem)
  else if dst.len < src.len then .panicked .outputSmallerThanInput (c, mem)
  else (CBCEncrypter.loop bs src.len ⟨c, mem, dst, src⟩).map Machine.seen

/-! ### `CBCDecrypter.CryptBlocks` -/

/-- The statement `c.ecb.CryptBlocks(c.work, src[:bs])`. Go checks `bs` against the capacity
of `src`; the model checks it against `len(src)`, which the loop has already made at least `bs`. -/
def CBCDecrypter.ecbStep (bs : Nat) (s : Machine CBCDecrypter) : Outcome (Machine CBCDecrypter) :=
  if bs ≤ s.src.len then
    match s.c.ecb.CryptBlocks s.c.work (readN s.mem s.src.off bs) with
    | .ok work => .returned { s with c := { s.c with work := work } }
    | .error p => .panicked p s
  else .panicked .sliceBoundsOutOfRange s

/-- The statements `tmp := src[i]; dst[i] = c.blk[i] ^ c.work[i]; c.blk[i] = tmp`. -/
def CBCDecrypter.xorStep (i : Nat) (s : Machine CBCDecrypter) : Outcome (Machine CBCDecrypter) :=
  if i < s.src.len then
    let tmp := s.mem (s.src.off + i)
    if i < s.c.blk.length ∧ i < s.c.work.length ∧ i < s.dst.len then
      .returned { s with
        mem := Function.update s.mem (s.dst.off + i) (bxor (s.c.blk.getD i 0) (s.c.work.getD i 0))
        c := { s.c with blk := s.c.blk.set i tmp } }
    else .panicked .indexOutOfRange s
  else .panicked .indexOutOfRange s

/-- One pass through the body of the `for len(src) > 0` loop of the decrypter. -/
def CBCDecrypter.iter (bs : Nat) (s : Machine CBCDecrypter) : Outcome (Machine CBCDecrypter) :=
  (((CBCDecrypter.ecbStep bs s).andThen
    (forLoop CBCDecrypter.xorStep bs 0)).andThen
    (advance bs))

/-- The loop `for len(src) > 0 { … }` of the decrypter. -/
def CBCDecrypter.loop (bs : Nat) : Nat → Machine CBCDecrypter → Outcome (Machine CBCDecrypter)
  | 0, s => if 0 < s.src.len then .outOfFuel else .returned s
  | fuel + 1, s =>
    if 0 < s.src.len then (CBCDecrypter.iter bs s).andThen (CBCDecrypter.loop bs fuel)
    else .returned s

/-- Go `func (c *CBCDecrypter) CryptBlocks(dst, src []byte)`. -/
def CBCDecrypter.CryptBlocks (c : CBCDecrypter) (mem : Mem) (dst src : Slice) :
    Outcome (CBCDecrypter × Mem) :=
  let bs := c.BlockSize
  if bs = 0 then .panicked .divideByZero (c, mem)
  else if src.len % bs ≠ 0 then .panicked .inputNotFullBlocks (c, mem)
  else if dst.len < src.len then .panicked .outputSmallerThanInput (c, mem)
  else (CBCDecrypter.loop bs src.len ⟨c, mem, dst, src⟩).map Machine.seen

/-! ## A small concrete primitive, for the examples -/

/-- Adds one to a byte (modulo 256). -/
def incByte (b : Byte) : Byte := b + 1

/-- Subtracts one from a byte (modulo 256). -/
def decByte (b : Byte) : Byte := b - 1

/-- A toy block primitive of block size `n`: `Encrypt` reverses the block and
adds one to every byte, `Decrypt` undoes it. -/
def toyBlock (n : Nat) : Block where
  BlockSize := n
  Encrypt := fun b => (b.map incByte).reverse
  Decrypt := fun b => (b.map decByte).reverse
  Encrypt_length := by intro b h; simp [h]
  Decrypt_length := by intro b h; simp [h]

/-- Memory holding the byte string `l` from address 0 on, zero elsewhere. -/
def memOf (l : List Byte) : Mem := fun a => l.getD a 0

/-! ## Reference functions and proof vocabulary -/

/-- The ciphertext of `n` blocks of `p`: `c_i = f (c_{i-1} XOR p_i)`, with `c_0 = prev`. -/
def encChain (f : List Byte → List Byte) (bs : Nat) : Nat → List Byte → List Byte → List Byte
  | 0, _, _ => []
  | n + 1, prev, p =>
    f (xorBytes prev (p.take bs)) ++ encChain f bs n (f (xorBytes prev (p.take bs))) (p.drop bs)

/-- The encrypter after `n` blocks of `p`. -/
def encEngine (bs : Nat) : Nat → CBCEncrypter → List Byte → CBCEncrypter
  | 0, c, _ => c
  | n + 1, c, p =>
    encEngine bs n
      { ecb := c.ecb
        blk := c.ecb.crypt (xorBytes c.blk (p.take bs))
        work := xorBytes c.blk (p.take bs) }
      (p.drop bs)

/-- The output of `n` blocks of the ciphertext `p`: `o_i = c_{i-1} XOR f c_i`, with `c_0 = prev`. -/
def decChain (f : List Byte → List Byte) (bs : Nat) : Nat → List Byte → List Byte → List Byte
  | 0, _, _ => []
  | n + 1, prev, p =>
    xorBytes prev (f (p.take bs)) ++ decChain f bs n (p.take bs) (p.drop bs)

/-- The decrypter after `n` blocks of `p`. -/
def decEngine (bs : Nat) : Nat → CBCDecrypter → List Byte → CBCDecrypter
  | 0, c, _ => c
  | n + 1, c, p =>
    decEngine bs n
      { ecb := c.ecb
        blk := p.take bs
        work := c.ecb.crypt (p.take bs) }
      (p.drop bs)

/-- Block number `i` (counted from 0) of a byte string cut into blocks of `bs` bytes. -/
def block (l : List Byte) (bs i : Nat) : List Byte := (l.drop (i * bs)).take bs

/-- The list `l` with the entries at indices `lo ≤ j < lo + k` replaced by `g j`. -/
def setRange (l : List Byte) (lo k : Nat) (g : Nat → Byte) : List Byte :=
  (List.range l.length).map (fun j => if lo ≤ j ∧ j < lo + k then g j else l.getD j 0)

/-- The memory `mem` with the addresses `base + lo ≤ a < base + lo + k` replaced by `g (a - base)`. -/
def memRange (mem : Mem) (base lo k : Nat) (g : Nat → Byte) : Mem :=
  fun a => if base + lo ≤ a ∧ a < base + lo + k then g (a - base) else mem a

/-- The aliasing under which a call does not overwrite input it has yet to read:
`dst` starts at or below `src` (the same buffer included), or `dst` lies above `src`. -/
def Slice.SafeFor (dst src : Slice) : Prop :=
  dst.off ≤ src.off ∨ src.off + src.len ≤ dst.off

instance (dst src : Slice) : Decidable (dst.SafeFor src) := by
  unfold Slice.SafeFor; infer_instance

/-- The IV of the examples on 4-byte blocks. -/
def toyIV : List Byte := [9, 9, 9, 9]

/-- Two blocks of 4 bytes. -/
def toyText : List Byte := [1, 2, 3, 4, 5, 6, 7, 8]

/-- As `toyText`, with the first byte of block 0 changed. -/
def toyText2 : List Byte := [0, 2, 3, 4, 5, 6, 7, 8]

/-- Three blocks of 4 bytes. -/
def toyLong : List Byte := [1, 2, 3, 4, 5, 6, 7, 8, 9, 10, 11, 12]

/-- As `toyLong`, with block 0 changed. -/
def toyLong2 : List Byte := [0, 2, 3, 4, 5, 6, 7, 8, 9, 10, 11, 12]

/-- The default IV of `main`: the ASCII bytes of `"0123456789abcdef"`. -/
def asciiIV : List Byte := [48, 49, 50, 51, 52, 53, 54, 55, 56, 57, 97, 98, 99, 100, 101, 102]

/-- Thirty-two bytes of `0xAA`. -/
def aaText : List Byte := List.replicate 32 170

/-! ## Invariants of the loops -/

/-- The machine `t` has the slice variables of `s`, and its memory differs from that of `s`
at most at the addresses `lo ≤ a < hi`. -/
def Machine.SameOutside {E : Type} (lo hi : Nat) (s t : Machine E) : Prop :=
  t.dst = s.dst ∧ t.src = s.src ∧ ∀ a, (a < lo ∨ hi ≤ a) → t.mem a = s.mem a

/-- The encrypter is in a state the constructor and the loop produce for block size `bs`:
its ECB mode has block size `bs`, and `blk` and `work` hold `bs` bytes. -/
def CBCEncrypter.WellFormed (c : CBCEncrypter) (bs : Nat) : Prop :=
  c.BlockSize = bs ∧ c.blk.length = bs ∧ c.work.length = bs

/-- The decrypter is in a state the constructor and the loop produce for block size `bs`. -/
def CBCDecrypter.WellFormed (c : CBCDecrypter) (bs : Nat) : Prop :=
  c.BlockSize = bs ∧ c.blk.length = bs ∧ c.work.length = bs

/-! ## The driver `main`

The model starts where `flag.Parse()` has returned. The libraries `main` calls (file system,
`crypto/aes`, `cipherio`, `crypto/cipher`, standard output) are the parameter `World`; a reader
is named by the library call that builds it. A panic that nothing recovers ends the process
with exit code 2: the constructors of `crypto/cipher` panic on an IV that is not one block
long, and a `Read` on a reader may panic (a block reader runs the `CryptBlocks` of its block
mode inside `Read`, so a panic of the engine comes out there). -/

/-- What `flag.Parse` left in the flag variables, once it has returned: the last value given
for each flag, `none` for a flag that was not given; `positionals` is `flag.Args()`. -/
structure CommandLine where
  key : Option (List Byte)
  mode : Option String
  decrypt : Option Bool
  initialValue : Option (List Byte)
  positionals : List String

/-- The input of the pipeline: `os.Stdin` or the file opened by `os.Open`. -/
inductive Source where
  | stdin
  | file (name : String)
deriving DecidableEq, Repr

/-- A `cipher.BlockMode` value: an ECB mode of package `ecb`, or one of the two engines of this
program. -/
inductive BlockModeValue where
  | ecb (x : BlockMode)
  | cbcEncrypter (c : CBCEncrypter)
  | cbcDecrypter (c : CBCDecrypter)

/-- A `cipher.Stream` value built by `crypto/cipher` from the primitive and the IV. -/
inductive StreamValue where
  | ofb (cphr : Block) (iv : List Byte)
  | cfbEncrypter (cphr : Block) (iv : List Byte)
  | cfbDecrypter (cphr : Block) (iv : List Byte)
  | ctr (cphr : Block) (iv : List Byte)

/-- The `io.Reader` that `main` pulls from, named by the library call that builds it. -/
inductive Reader where
  /-- Library call `cipherio.NewBlockReaderWithPadding(stream, bm, cipherio.ZeroPadding)`. -/
  | blockReaderWithZeroPadding (stream : Source) (bm : BlockModeValue)
  /-- Library value `cipher.StreamReader{S: s, R: stream}`. -/
  | streamReader (s : StreamValue) (stream : Source)

/-- Go `func EcbReader(decrypt bool, stream io.Reader, cphr cipher.Block) io.Reader`. -/
def EcbReader (decrypt : Bool) (stream : Source) (cphr : Block) : Reader :=
  .blockReaderWithZeroPadding stream
    (.ecb (if decrypt then NewECBDecrypter cphr else NewECBEncrypter cphr))

/-- Go `func OfbReader(iv []byte, stream io.Reader, cphr cipher.Block) io.Reader`:
`cipher.NewOFB(cphr, iv)` panics unless `len(iv)` is the block size. -/
def OfbReader (iv : List Byte) (stream : Source) (cphr : Block) : Except Panic Reader :=
  if iv.length = cphr.BlockSize then .ok (.streamReader (.ofb cphr iv) stream)
  else .error .ivLength

/-- Go `func CfbReader(decrypt bool, iv []byte, stream io.Reader, cphr cipher.Block) io.Reader`:
`cipher.NewCFBDecrypter(cphr, iv)` and `cipher.NewCFBEncrypter(cphr, iv)` panic unless
`len(iv)` is the block size. -/
def CfbReader (decrypt : Bool) (iv : List Byte) (stream : Source) (cphr : Block) :
    Except Panic Reader :=
  if iv.length = cphr.BlockSize then
    .ok (.streamReader (if decrypt then .cfbDecrypter cphr iv else .cfbEncrypter cphr iv) stream)
  else .error .ivLength

/-- Go `func CbcReader(decrypt bool, iv []byte, stream io.Reader, cphr cipher.Block) io.Reader`:
the block mode is the hand-built engine, the calls of `crypto/cipher` being commented out, so
nothing here looks at `len(iv)` and the call returns for every IV. A wrong IV shows later, in
a `Read`. -/
def CbcReader (decrypt : Bool) (iv : List Byte) (stream : Source) (cphr : Block) : Reader :=
  .blockReaderWithZeroPadding stream
    (if decrypt then .cbcDecrypter (NewCBCDecrypter cphr iv)
     else .cbcEncrypter (NewCBCEncrypter cphr iv))

/-- Go `func CtrReader(iv []byte, stream io.Reader, cphr cipher.Block) io.Reader`:
`cipher.NewCTR(cphr, iv)` panics unless `len(iv)` is the block size. -/
def CtrReader (iv : List Byte) (stream : Source) (cphr : Block) : Except Panic Reader :=
  if iv.length = cphr.BlockSize then .ok (.streamReader (.ctr cphr iv) stream)
  else .error .ivLength

/-- The `err` of a `Read` or `Write`: `nil`, `io.EOF`, or any other error. -/
inductive ErrKind where
  | nil
  | eof
  | other
deriving DecidableEq, Repr

/-- What one `ostream.Read(buf)` returns: the bytes put in `buf` and the error. -/
structure ReadResult where
  data : List Byte
  err : ErrKind

/-- What one `ostream.Read(buf)` does: it returns, or it panics. A block reader calls the
`CryptBlocks` of its block mode inside `Read`; when that call panics (the hand-built engine
with an IV shorter than a block, at `c.blk[i]`), the `Read` panics. -/
inductive ReadEvent where
  | returned (r : ReadResult)
  | panicked (p : Panic)

/-- What one `os.Stdout.Write` returns: the number of bytes written and the error. -/
structure WriteResult where
  n : Nat
  err : ErrKind

/-- A line that `main` prints on `os.Stderr`. -/
inductive Diag where
  /-- The line "Cannot open" with the name, followed by the error. -/
  | cannotOpen (name : String)
  /-- The line "Too many files specified". -/
  | tooManyFiles
  /-- The line "No key specified". -/
  | noKey
  /-- The usage text of `flag.PrintDefaults()`. -/
  | usage
  /-- The line "Could not create aes instance", followed by the error. -/
  | cipherError
  /-- The line "Invalid mode". -/
  | invalidMode
  /-- The line "read error" with the error. -/
  | readError
  /-- The line "write error" with the error. -/
  | writeError
  /-- The message and the goroutine trace the Go runtime prints for a panic nothing recovers. -/
  | panic (p : Panic)
deriving DecidableEq, Repr

/-- How the process ends: the exit code (0 when `main` returns, 1 on `os.Exit(1)`, 2 when a
panic ends the process), the bytes written to standard output and the lines printed on
standard error. -/
structure Exit where
  code : Nat
  stdout : List Byte
  stderr : List Diag
deriving DecidableEq, Repr

/-- The surroundings of `main`: the file system, the AES library, the library readers and
standard output. -/
structure World where
  /-- Whether `os.Open(name)` succeeds. -/
  openOk : String → Bool
  /-- Library call `aes.NewCipher(key)`: the block primitive, or `none` for an error. -/
  newCipher : List Byte → Option Block
  /-- What the successive `Read(buf)` calls on a reader do; past the end of the list a read
  returns no bytes. -/
  reads : Reader → List ReadEvent
  /-- The result of the `i`-th `os.Stdout.Write` on a chunk. -/
  write : Nat → List Byte → WriteResult

/-- The `switch len(positionals)` of `main`: the input stream, or the lines printed before
`os.Exit(1)`. -/
def inputStream (w : World) (positionals : List String) : Except (List Diag) Source :=
  match positionals with
  | [] => .ok .stdin
  | [name] => if w.openOk name then .ok (.file name) else .error [.cannotOpen name]
  | _ :: _ :: _ => .error [.tooManyFiles]

/-- The `switch mode` of `main`: the call of the reader function it makes (which returns the
reader or panics), or `none` for the `default` branch. -/
def modeSwitch (mode : String) (decrypt : Bool) (iv : List Byte) (stream : Source)
    (aes : Block) : Option (Except Panic Reader) :=
  if mode = "ecb" then some (.ok (EcbReader decrypt stream aes))
  else if mode = "ofb" then some (OfbReader iv stream aes)
  else if mode = "cfb" then some (CfbReader decrypt iv stream aes)
  else if mode = "cbc" then some (.ok (CbcReader decrypt iv stream aes))
  else if mode = "ctr" then some (CtrReader iv stream aes)
  else none

/-- The final `for` loop of `main` over the reads still to come: `i` counts the writes made,
`out` is what standard output holds so far. A `Read` that panics ends the process with exit
code 2, whatever was written before staying on standard output. -/
def pump (w : World) : List ReadEvent → Nat → List Byte → Exit
  | [], _, out => ⟨0, out, []⟩
  | .panicked p :: _, _, out => ⟨2, out, [.panic p]⟩
  | .returned r :: rest, i, out =>
    if r.err = .other then ⟨1, out, [.readError]⟩
    else if r.data.length = 0 then ⟨0, out, []⟩
    else if (w.write i r.data).err = .other then
      ⟨1, out ++ r.data.take (w.write i r.data).n, [.writeError]⟩
    else pump w rest (i + 1) (out ++ r.data.take (w.write i r.data).n)

/-- What `main` does with the call of a reader function: the assignment `ostream = …Reader(…)`
followed by the final loop. When the call panics the process ends with exit code 2 and
nothing on standard output. -/
def runReader (w : World) (call : Except Panic Reader) : Exit :=
  match call with
  | .error p => ⟨2, [], [.panic p]⟩
  | .ok ostream => pump w (w.reads ostream) 0 []

/-- Go `func main()`, from the return of `flag.Parse()` on. The flag variables start as
`iv = "0123456789abcdef"`, `key = nil`, `mode = "ecb"`, `decrypt = false`. -/
def main (w : World) (cl : CommandLine) : Exit :=
  match inputStream w cl.positionals with
  | .error lines => ⟨1, [], lines⟩
  | .ok stream =>
    match cl.key with
    | none => ⟨1, [], [.noKey, .usage]⟩
    | some key =>
      match w.newCipher key with
      | none => ⟨1, [], [.cipherError]⟩
      | some aes =>
        match modeSwitch (cl.mode.getD "ecb") (cl.decrypt.getD false)
            (cl.initialValue.getD asciiIV) stream aes with
        | none => ⟨1, [], [.invalidMode]⟩
        | some call => runReader w call

/-- A world for the examples: every file opens, a key of 16 bytes gives the toy primitive,
readers are at their end, writes succeed. -/
def toyWorld : World where
  openOk := fun _ => true
  newCipher := fun key => if key.length = 16 then some (toyBlock 16) else none
  reads := fun _ => []
  write := fun _ chunk => ⟨chunk.length, .nil⟩

/-- A command line with no flag and no file. -/
def bareLine : CommandLine := ⟨none, none, none, none, []⟩

/-- A command line asking for the OFB mode with a key of 16 zero bytes and the 3-byte IV
`"abc"`. -/
def ofbShortLine : CommandLine :=
  ⟨some (List.replicate 16 0), some "ofb", none, some [97, 98, 99], []⟩

/-- A command line asking for the CBC mode with a key of 16 zero bytes and the 3-byte IV
`"abc"`. -/
def cbcShortLine : CommandLine :=
  ⟨some (List.replicate 16 0), some "cbc", none, some [97, 98, 99], []⟩

/-- A world in which the first `Read` panics with an index out of range, as the block reader
on the hand-built engine does when the IV is shorter than a block and there is input. -/
def panicWorld : World where
  openOk := fun _ => true
  newCipher := fun key => if key.length = 16 then some (toyBlock 16) else none
  reads := fun _ => [.panicked .indexOutOfRange]
  write := fun _ chunk => ⟨chunk.length, .nil⟩

/-! ## More proof vocabulary and examples -/

/-- A fresh encrypter on the toy primitive with 4-byte blocks. -/
def toyEnc : CBCEncrypter := NewCBCEncrypter (toyBlock 4) toyIV

/-- A fresh decrypter on the toy primitive with 4-byte blocks. -/
def toyDec : CBCDecrypter := NewCBCDecrypter (toyBlock 4) toyIV

/-! ## Lemmas: bytes, lists, memory -/

theorem bxor_val (a b : Byte) : (bxor a b).val = a.val ^^^ b.val := by
  have h : a.val ^^^ b.val < 2 ^ 8 := Nat.xor_lt_two_pow a.isLt b.isLt
  simp only [bxor]
  exact Nat.mod_eq_of_lt h

theorem bxor_cancel_left (a b : Byte) : bxor a (bxor a b) = b := by
  apply Fin.ext
  rw [bxor_val, bxor_val, ← Nat.xor_assoc, Nat.xor_self, Nat.zero_xor]

theorem bxor_left_inj (a b c : Byte) (h : bxor a c = bxor b c) : a = b := by
  have h1 := congrArg Fin.val h
  rw [bxor_val, bxor_val] at h1
  apply Fin.ext
  exact Nat.xor_left_inj.mp h1

theorem setRange_zero (l : List Byte) (lo : Nat) (g : Nat → Byte) : setRange l lo 0 g = l := by
  apply List.ext_getElem
  · simp [setRange]
  · intro j h1 h2
    simp [setRange, List.getD_eq_getElem?_getD, List.getElem?_eq_getElem h2]

theorem setRange_succ (l : List Byte) (lo k : Nat) (g : Nat → Byte) :
    setRange (l.set lo (g lo)) (lo + 1) k g = setRange l lo (k + 1) g := by
  apply List.ext_getElem
  · simp [setRange]
  · intro j h1 h2
    simp only [setRange, List.length_set, List.getElem_map, List.getElem_range]
    by_cases hj : j = lo
    · subst hj
      simp [setRange] at h2
      simp [List.getD_eq_getElem?_getD, List.getElem?_set, h2]
    · have e : (l.set lo (g lo)).getD j 0 = l.getD j 0 := by
        simp [List.getD_eq_getElem?_getD, List.getElem?_set, Ne.symm hj]
      rw [e]
      have : (lo + 1 ≤ j ∧ j < lo + 1 + k) ↔ (lo ≤ j ∧ j < lo + (k + 1)) := by omega
      simp only [this]

theorem setRange_congr (l : List Byte) (lo k : Nat) (g h : Nat → Byte)
    (e : ∀ j, lo ≤ j → j < lo + k → g j = h j) : setRange l lo k g = setRange l lo k h := by
  simp only [setRange]
  apply List.map_congr_left
  intro j _
  by_cases c : lo ≤ j ∧ j < lo + k
  · simp [c, e j c.1 c.2]
  · simp [c]

theorem setRange_full (l : List Byte) (n : Nat) (g : Nat → Byte) (h : l.length = n) :
    setRange l 0 n g = (List.range n).map g := by
  simp only [setRange, h]
  apply List.map_congr_left
  intro j hj
  simp at hj
  simp [hj]

theorem memRange_zero (mem : Mem) (base lo : Nat) (g : Nat → Byte) : memRange mem base lo 0 g = mem := by
  funext a
  simp [memRange]

theorem memRange_succ (mem : Mem) (base lo k : Nat) (g : Nat → Byte) :
    memRange (Function.update mem (base + lo) (g lo)) base (lo + 1) k g
      = memRange mem base lo (k + 1) g := by
  funext a
  simp only [memRange, Function.update]
  by_cases ha : a = base + lo
  · subst ha
    simp
  · have : (base + (lo + 1) ≤ a ∧ a < base + (lo + 1) + k) ↔ (base + lo ≤ a ∧ a < base + lo + (k + 1)) := by
      omega
    simp [this, ha]

theorem memRange_congr (mem : Mem) (base lo k : Nat) (g h : Nat → Byte)
    (e : ∀ j, lo ≤ j → j < lo + k → g j = h j) : memRange mem base lo k g = memRange mem base lo k h := by
  funext a
  simp only [memRange]
  by_cases c : base + lo ≤ a ∧ a < base + lo + k
  · simp only [c, and_self, if_true]
    apply e <;> omega
  · simp [c]

theorem memRange_full (mem : Mem) (base n : Nat) (g : Nat → Byte) :
    memRange mem base 0 n g = writeN mem base ((List.range n).map g) := by
  funext a
  simp only [memRange, writeN, Nat.add_zero]
  by_cases h1 : base ≤ a
  · by_cases h2 : a < base + n
    · have h3 : a - base < n := by omega
      simp [h1, h2, List.getElem?_map, List.getElem?_range h3]
    · have h3 : ¬ a - base < n := by omega
      simp [h1, h2, List.getElem?_map, h3]
      rw [List.getElem?_eq_none (by simp; omega)]
      simp
  · simp [h1]

theorem enc_xorLoop (k : Nat) : ∀ (lo : Nat) (s : Machine CBCEncrypter),
    lo + k ≤ s.c.blk.length → lo + k ≤ s.src.len → lo + k ≤ s.c.work.length →
    forLoop CBCEncrypter.xorStep k lo s = .returned { s with
      c := { s.c with
        work := setRange s.c.work lo k (fun j => bxor (s.c.blk.getD j 0) (s.mem (s.src.off + j))) } } := by
  induction k with
  | zero =>
    intro lo s _ _ _
    simp [forLoop, setRange_zero]
  | succ k ih =>
    intro lo s h1 h2 h3
    have c : lo < s.c.blk.length ∧ lo < s.src.len ∧ lo < s.c.work.length := by omega
    simp only [forLoop, CBCEncrypter.xorStep, c, and_self, if_true, Outcome.andThen]
    rw [ih]
    · simp only [List.length_set]
      rw [setRange_succ s.c.work lo k (fun j => bxor (s.c.blk.getD j 0) (s.mem (s.src.off + j)))]
    · simp only; omega
    · simp only; omega
    · simp only [List.length_set]; omega

theorem enc_copyLoop (k : Nat) : ∀ (lo : Nat) (s : Machine CBCEncrypter),
    lo + k ≤ s.c.blk.length → lo + k ≤ s.dst.len →
    forLoop CBCEncrypter.copyStep k lo s = .returned { s with
      mem := memRange s.mem s.dst.off lo k (fun j => s.c.blk.getD j 0) } := by
  induction k with
  | zero =>
    intro lo s _ _
    simp [forLoop, memRange_zero]
  | succ k ih =>
    intro lo s h1 h2
    have c : lo < s.c.blk.length ∧ lo < s.dst.len := by omega
    simp only [forLoop, CBCEncrypter.copyStep, c, and_self, if_true, Outcome.andThen]
    rw [ih]
    · simp only
      rw [memRange_succ s.mem s.dst.off lo k (fun j => s.c.blk.getD j 0)]
    · simp only; omega
    · simp only; omega

theorem map_getD_range (l : List Byte) (n : Nat) (h : l.length = n) :
    (List.range n).map (fun j => l.getD j 0) = l := by
  subst h
  apply List.ext_getElem
  · simp
  · intro j h1 h2
    simp [List.getD_eq_getElem?_getD, List.getElem?_eq_getElem h2]

theorem map_bxor_range (a b : List Byte) (n : Nat) (ha : a.length = n) (hb : b.length = n) :
    (List.range n).map (fun j => bxor (a.getD j 0) (b.getD j 0)) = xorBytes a b := by
  apply List.ext_getElem
  · simp [xorBytes, ha, hb]
  · intro j h1 h2
    have h3 : j < n := by simpa using h1
    simp [xorBytes, List.getD_eq_getElem?_getD, List.getElem?_eq_getElem (ha ▸ h3),
      List.getElem?_eq_getElem (hb ▸ h3)]

theorem length_readN (mem : Mem) (off n : Nat) : (readN mem off n).length = n := by
  simp [readN]

theorem getD_readN (mem : Mem) (off n j : Nat) (h : j < n) :
    (readN mem off n).getD j 0 = mem (off + j) := by
  simp [readN, List.getD_eq_getElem?_getD, List.getElem?_map, List.getElem?_range h]

theorem length_xorBytes (a b : List Byte) : (xorBytes a b).length = min a.length b.length := by
  simp [xorBytes]

theorem ecb_oneBlock (x : BlockMode) (dst src : List Byte) (hpos : 0 < x.blockSize)
    (hs : src.length = x.blockSize) (hd : dst.length = x.blockSize) :
    x.CryptBlocks dst src = .ok (x.crypt src) := by
  have h0 : x.blockSize ≠ 0 := by omega
  obtain ⟨m, hm⟩ : ∃ m, x.blockSize = m + 1 := ⟨x.blockSize - 1, by omega⟩
  have e1 : x.cryptEach src.length src = x.crypt src := by
    rw [hs, hm]
    simp only [BlockMode.cryptEach]
    have : 0 < src.length := by omega
    simp only [this, if_true]
    rw [← hs, List.take_length, List.drop_length]
    cases m <;> simp [BlockMode.cryptEach]
  have e2 : dst.drop src.length = [] := by
    rw [hs, ← hd]; simp
  have h1 : ¬ (src.length % x.blockSize ≠ 0) := by simp [hs]
  have h2 : ¬ (dst.length < src.length) := by omega
  simp only [BlockMode.CryptBlocks, h0, h1, h2, if_false, e1, e2, List.append_nil]

theorem enc_iter (bs : Nat) (s : Machine CBCEncrypter) (hpos : 0 < bs)
    (hbs : s.c.ecb.blockSize = bs) (hblk : s.c.blk.length = bs) (hwork : s.c.work.length = bs)
    (hsrc : bs ≤ s.src.len) (hdst : bs ≤ s.dst.len) :
    CBCEncrypter.iter bs s = .returned
      { c := { ecb := s.c.ecb
               blk := s.c.ecb.crypt (xorBytes s.c.blk (readN s.mem s.src.off bs))
               work := xorBytes s.c.blk (readN s.mem s.src.off bs) }
        mem := writeN s.mem s.dst.off (s.c.ecb.crypt (xorBytes s.c.blk (readN s.mem s.src.off bs)))
        dst := s.dst.drop bs
        src := s.src.drop bs } := by
  have hx : (xorBytes s.c.blk (readN s.mem s.src.off bs)).length = bs := by
    simp [length_xorBytes, length_readN, hblk]
  have e1 : setRange s.c.work 0 bs (fun j => bxor (s.c.blk.getD j 0) (s.mem (s.src.off + j)))
      = xorBytes s.c.blk (readN s.mem s.src.off bs) := by
    rw [setRange_full _ _ _ hwork, ← map_bxor_range _ _ bs hblk (length_readN _ _ _)]
    apply List.map_congr_left
    intro j hj
    rw [getD_readN _ _ _ _ (by simpa using hj)]
  have hc := s.c.ecb.crypt_length (xorBytes s.c.blk (readN s.mem s.src.off bs)) (by rw [hx, hbs])
  rw [hbs] at hc
  simp only [CBCEncrypter.iter]
  rw [enc_xorLoop bs 0 s (by omega) (by omega) (by omega)]
  simp only [Outcome.andThen, CBCEncrypter.ecbStep, e1]
  rw [ecb_oneBlock _ _ _ (by omega) (by rw [hx, hbs]) (by rw [hblk, hbs])]
  simp only
  rw [enc_copyLoop bs 0 _ (by simp only; omega) (by simp only; omega)]
  simp only [memRange_full, map_getD_range _ _ hc, advance, hsrc, hdst, if_true]

theorem dec_xorLoop (k : Nat) : ∀ (lo : Nat) (s : Machine CBCDecrypter),
    lo + k ≤ s.c.blk.length → lo + k ≤ s.src.len → lo + k ≤ s.c.work.length →
    lo + k ≤ s.dst.len → (s.dst.off ≤ s.src.off ∨ s.src.off + (lo + k) ≤ s.dst.off) →
    forLoop CBCDecrypter.xorStep k lo s = .returned { s with
      mem := memRange s.mem s.dst.off lo k (fun j => bxor (s.c.blk.getD j 0) (s.c.work.getD j 0))
      c := { s.c with blk := setRange s.c.blk lo k (fun j => s.mem (s.src.off + j)) } } := by
  induction k with
  | zero =>
    intro lo s _ _ _ _ _
    simp [forLoop, memRange_zero, setRange_zero]
  | succ k ih =>
    intro lo s h1 h2 h3 h4 h5
    have c1 : lo < s.src.len := by omega
    have c2 : lo < s.c.blk.length ∧ lo < s.c.work.length ∧ lo < s.dst.len := by omega
    simp only [forLoop, CBCDecrypter.xorStep, c1, c2, and_self, if_true, Outcome.andThen]
    rw [ih]
    · simp only
      have m1 : memRange (Function.update s.mem (s.dst.off + lo)
            (bxor (s.c.blk.getD lo 0) (s.c.work.getD lo 0))) s.dst.off (lo + 1) k
            (fun j => bxor ((s.c.blk.set lo (s.mem (s.src.off + lo))).getD j 0) (s.c.work.getD j 0))
          = memRange s.mem s.dst.off lo (k + 1)
            (fun j => bxor (s.c.blk.getD j 0) (s.c.work.getD j 0)) := by
        rw [← memRange_succ]
        apply memRange_congr
        intro j hj1 hj2
        have : lo ≠ j := by omega
        simp [List.getD_eq_getElem?_getD, List.getElem?_set, this]
      have m2 : setRange (s.c.blk.set lo (s.mem (s.src.off + lo))) (lo + 1) k
            (fun j => Function.update s.mem (s.dst.off + lo)
              (bxor (s.c.blk.getD lo 0) (s.c.work.getD lo 0)) (s.src.off + j))
          = setRange s.c.blk lo (k + 1) (fun j => s.mem (s.src.off + j)) := by
        rw [← setRange_succ]
        apply setRange_congr
        intro j hj1 hj2
        have : s.src.off + j ≠ s.dst.off + lo := by omega
        simp [Function.update, this]
      rw [m1, m2]
    · simp only [List.length_set]; omega
    · simp only; omega
    · simp only; omega
    · simp only; omega
    · simp only; omega

theorem dec_iter (bs : Nat) (s : Machine CBCDecrypter) (hpos : 0 < bs)
    (hbs : s.c.ecb.blockSize = bs) (hblk : s.c.blk.length = bs) (hwork : s.c.work.length = bs)
    (hsrc : bs ≤ s.src.len) (hdst : bs ≤ s.dst.len)
    (hal : s.dst.off ≤ s.src.off ∨ s.src.off + bs ≤ s.dst.off) :
    CBCDecrypter.iter bs s = .returned
      { c := { ecb := s.c.ecb
               blk := readN s.mem s.src.off bs
               work := s.c.ecb.crypt (readN s.mem s.src.off bs) }
        mem := writeN s.mem s.dst.off (xorBytes s.c.blk (s.c.ecb.crypt (readN s.mem s.src.off bs)))
        dst := s.dst.drop bs
        src := s.src.drop bs } := by
  have hc := s.c.ecb.crypt_length (readN s.mem s.src.off bs) (by rw [length_readN, hbs])
  rw [hbs] at hc
  simp only [CBCDecrypter.iter, CBCDecrypter.ecbStep, hsrc, if_true]
  rw [ecb_oneBlock _ _ _ (by omega) (by rw [length_readN, hbs]) (by rw [hwork, hbs])]
  simp only [Outcome.andThen]
  rw [dec_xorLoop bs 0 _ (by simp only; omega) (by simp only; omega) (by simp only; omega)
    (by simp only; omega) (by simp only; omega)]
  simp only [memRange_full, setRange_full _ _ _ hblk, map_bxor_range _ _ bs hblk hc, advance,
    hsrc, hdst, if_true]
  rfl

theorem readN_writeN_of_disjoint (mem : Mem) (off n woff : Nat) (l : List Byte)
    (h : off + n ≤ woff ∨ woff + l.length ≤ off) :
    readN (writeN mem woff l) off n = readN mem off n := by
  simp only [readN]
  apply List.map_congr_left
  intro i hi
  have hi2 : i < n := by simpa using hi
  simp only [writeN]
  by_cases c : woff ≤ off + i
  · have : l.length ≤ off + i - woff := by omega
    simp [c, List.getElem?_eq_none this]
  · simp [c]

theorem readN_writeN_same (mem : Mem) (off : Nat) (l : List Byte) :
    readN (writeN mem off l) off l.length = l := by
  apply List.ext_getElem
  · simp [readN]
  · intro j h1 h2
    simp [readN, writeN, List.getElem?_eq_getElem h2]

theorem writeN_append (mem : Mem) (off : Nat) (a b : List Byte) :
    writeN (writeN mem off a) (off + a.length) b = writeN mem off (a ++ b) := by
  funext x
  simp only [writeN]
  by_cases c1 : off ≤ x
  · by_cases c2 : off + a.length ≤ x
    · have e : x - off = a.length + (x - (off + a.length)) := by omega
      have : a.length ≤ x - off := by omega
      simp [c1, c2, List.getElem?_append_right this, List.getElem?_eq_none this]
      congr 2
      omega
    · have : x - off < a.length := by omega
      simp [c1, c2, List.getElem?_append_left this]
  · have c2 : ¬ off + a.length ≤ x := by omega
    simp [c1, c2]

theorem writeN_append_of_length (mem : Mem) (off k : Nat) (a b : List Byte) (h : a.length = k) :
    writeN (writeN mem off a) (off + k) b = writeN mem off (a ++ b) := by
  rw [← h, writeN_append]

theorem writeN_nil (mem : Mem) (off : Nat) : writeN mem off [] = mem := by
  funext x
  simp [writeN]

theorem readN_add (mem : Mem) (off n m : Nat) :
    readN mem off (n + m) = readN mem off n ++ readN mem (off + n) m := by
  simp only [readN, List.range_add, List.map_append, List.map_map]
  congr 1
  apply List.map_congr_left
  intro i _
  simp [Nat.add_assoc]

theorem take_readN (mem : Mem) (off n m : Nat) :
    (readN mem off (n + m)).take n = readN mem off n := by
  rw [readN_add, List.take_left' (length_readN _ _ _)]

theorem drop_readN (mem : Mem) (off n m : Nat) :
    (readN mem off (n + m)).drop n = readN mem (off + n) m := by
  rw [readN_add, List.drop_left' (length_readN _ _ _)]

theorem Slice.drop_drop (s : Slice) (a b : Nat) : (s.drop a).drop b = s.drop (a + b) := by
  simp only [Slice.drop, Slice.mk.injEq]
  omega

theorem Slice.drop_zero (s : Slice) : s.drop 0 = s := rfl

theorem enc_loop (bs : Nat) (hpos : 0 < bs) (n : Nat) :
    ∀ (fuel : Nat) (c : CBCEncrypter) (mem : Mem) (dst src : Slice),
      c.ecb.blockSize = bs → c.blk.length = bs → c.work.length = bs →
      src.len = n * bs → src.len ≤ dst.len → n ≤ fuel →
      (dst.off ≤ src.off ∨ src.off + src.len ≤ dst.off) →
      CBCEncrypter.loop bs fuel ⟨c, mem, dst, src⟩ = .returned
        { c := encEngine bs n c (readN mem src.off (n * bs))
          mem := writeN mem dst.off (encChain c.ecb.crypt bs n c.blk (readN mem src.off (n * bs)))
          dst := dst.drop (n * bs)
          src := src.drop (n * bs) } := by
  induction n with
  | zero =>
    intro fuel c mem dst src _ _ _ hlen _ _ _
    have h0 : ¬ (0 < src.len) := by omega
    cases fuel <;>
      simp [CBCEncrypter.loop, h0, encEngine, encChain, writeN_nil, Slice.drop_zero]
  | succ n ih =>
    intro fuel c mem dst src hbs hblk hwork hlen hdst hfuel hal
    have e : (n + 1) * bs = bs + n * bs := by ring
    rw [e] at hlen ⊢
    obtain ⟨fuel, rfl⟩ : ∃ f, fuel = f + 1 := ⟨fuel - 1, by omega⟩
    have hp : 0 < src.len := by omega
    have hx : (xorBytes c.blk (readN mem src.off bs)).length = bs := by
      simp [length_xorBytes, length_readN, hblk]
    have hc := c.ecb.crypt_length (xorBytes c.blk (readN mem src.off bs)) (by rw [hx, hbs])
    rw [hbs] at hc
    simp only [CBCEncrypter.loop, hp, if_true]
    rw [enc_iter bs _ hpos hbs hblk hwork (by simp only; omega) (by simp only; omega)]
    simp only [Outcome.andThen]
    rw [ih fuel ⟨c.ecb, c.ecb.crypt (xorBytes c.blk (readN mem src.off bs)),
        xorBytes c.blk (readN mem src.off bs)⟩ _ _ _ hbs hc hx (by simp only [Slice.drop]; omega)
      (by simp only [Slice.drop]; omega) (by omega) (by simp only [Slice.drop]; omega)]
    have r : readN (writeN mem dst.off (c.ecb.crypt (xorBytes c.blk (readN mem src.off bs))))
        (src.off + bs) (n * bs) = readN mem (src.off + bs) (n * bs) := by
      apply readN_writeN_of_disjoint
      rw [hc]
      omega
    simp only [Slice.drop_drop, take_readN, drop_readN, encEngine, encChain]
    have w : (src.drop bs).off = src.off + bs := rfl
    have w2 : (dst.drop bs).off = dst.off + bs := rfl
    simp only [w, w2, r]
    rw [writeN_append_of_length _ _ _ _ _ hc]

theorem dec_loop (bs : Nat) (hpos : 0 < bs) (n : Nat) :
    ∀ (fuel : Nat) (c : CBCDecrypter) (mem : Mem) (dst src : Slice),
      c.ecb.blockSize = bs → c.blk.length = bs → c.work.length = bs →
      src.len = n * bs → src.len ≤ dst.len → n ≤ fuel →
      (dst.off ≤ src.off ∨ src.off + src.len ≤ dst.off) →
      CBCDecrypter.loop bs fuel ⟨c, mem, dst, src⟩ = .returned
        { c := decEngine bs n c (readN mem src.off (n * bs))
          mem := writeN mem dst.off (decChain c.ecb.crypt bs n c.blk (readN mem src.off (n * bs)))
          dst := dst.drop (n * bs)
          src := src.drop (n * bs) } := by
  induction n with
  | zero =>
    intro fuel c mem dst src _ _ _ hlen _ _ _
    have h0 : ¬ (0 < src.len) := by omega
    cases fuel <;>
      simp [CBCDecrypter.loop, h0, decEngine, decChain, writeN_nil, Slice.drop_zero]
  | succ n ih =>
    intro fuel c mem dst src hbs hblk hwork hlen hdst hfuel hal
    have e : (n + 1) * bs = bs + n * bs := by ring
    rw [e] at hlen ⊢
    obtain ⟨fuel, rfl⟩ : ∃ f, fuel = f + 1 := ⟨fuel - 1, by omega⟩
    have hp : 0 < src.len := by omega
    have hc := c.ecb.crypt_length (readN mem src.off bs) (by rw [length_readN, hbs])
    rw [hbs] at hc
    have hx : (xorBytes c.blk (c.ecb.crypt (readN mem src.off bs))).length = bs := by
      simp [length_xorBytes, hc, hblk]
    simp only [CBCDecrypter.loop, hp, if_true]
    rw [dec_iter bs _ hpos hbs hblk hwork (by simp only; omega) (by simp only; omega)
      (by simp only; omega)]
    simp only [Outcome.andThen]
    rw [ih fuel ⟨c.ecb, readN mem src.off bs, c.ecb.crypt (readN mem src.off bs)⟩ _ _ _ hbs
      (length_readN _ _ _) hc (by simp only [Slice.drop]; omega)
      (by simp only [Slice.drop]; omega) (by omega) (by simp only [Slice.drop]; omega)]
    have r : readN (writeN mem dst.off (xorBytes c.blk (c.ecb.crypt (readN mem src.off bs))))
        (src.off + bs) (n * bs) = readN mem (src.off + bs) (n * bs) := by
      apply readN_writeN_of_disjoint
      rw [hx]
      omega
    simp only [Slice.drop_drop, take_readN, drop_readN, decEngine, decChain]
    have w : (src.drop bs).off = src.off + bs := rfl
    have w2 : (dst.drop bs).off = dst.off + bs := rfl
    simp only [w, w2, r]
    rw [writeN_append_of_length _ _ _ _ _ hx]

theorem enc_CryptBlocks (c : CBCEncrypter) (mem : Mem) (dst src : Slice)
    (hpos : 0 < c.BlockSize) (hblk : c.blk.length = c.BlockSize)
    (hwork : c.work.length = c.BlockSize) (hsrc : src.len % c.BlockSize = 0)
    (hdst : src.len ≤ dst.len) (hal : dst.SafeFor src) :
    c.CryptBlocks mem dst src = .returned
      (encEngine c.BlockSize (src.len / c.BlockSize) c (src.bytes mem),
       writeN mem dst.off
        (encChain c.ecb.crypt c.BlockSize (src.len / c.BlockSize) c.blk (src.bytes mem))) := by
  have h0 : c.BlockSize ≠ 0 := by omega
  have h1 : ¬ (src.len % c.BlockSize ≠ 0) := by simp [hsrc]
  have h2 : ¬ (dst.len < src.len) := by omega
  have hn : src.len = src.len / c.BlockSize * c.BlockSize :=
    (Nat.div_mul_cancel (Nat.dvd_of_mod_eq_zero hsrc)).symm
  have hf : src.len / c.BlockSize ≤ src.len := Nat.div_le_self _ _
  simp only [CBCEncrypter.CryptBlocks, h0, h1, h2, if_false]
  rw [enc_loop c.BlockSize hpos (src.len / c.BlockSize) src.len c mem dst src rfl hblk hwork hn
    hdst hf hal]
  simp only [Outcome.map, Machine.seen, Slice.bytes, ← hn]

theorem dec_CryptBlocks (c : CBCDecrypter) (mem : Mem) (dst src : Slice)
    (hpos : 0 < c.BlockSize) (hblk : c.blk.length = c.BlockSize)
    (hwork : c.work.length = c.BlockSize) (hsrc : src.len % c.BlockSize = 0)
    (hdst : src.len ≤ dst.len) (hal : dst.SafeFor src) :
    c.CryptBlocks mem dst src = .returned
      (decEngine c.BlockSize (src.len / c.BlockSize) c (src.bytes mem),
       writeN mem dst.off
        (decChain c.ecb.crypt c.BlockSize (src.len / c.BlockSize) c.blk (src.bytes mem))) := by
  have h0 : c.BlockSize ≠ 0 := by omega
  have h1 : ¬ (src.len % c.BlockSize ≠ 0) := by simp [hsrc]
  have h2 : ¬ (dst.len < src.len) := by omega
  have hn : src.len = src.len / c.BlockSize * c.BlockSize :=
    (Nat.div_mul_cancel (Nat.dvd_of_mod_eq_zero hsrc)).symm
  have hf : src.len / c.BlockSize ≤ src.len := Nat.div_le_self _ _
  simp only [CBCDecrypter.CryptBlocks, h0, h1, h2, if_false]
  rw [dec_loop c.BlockSize hpos (src.len / c.BlockSize) src.len c mem dst src rfl hblk hwork hn
    hdst hf hal]
  simp only [Outcome.map, Machine.seen, Slice.bytes, ← hn]

theorem bxor_comm (a b : Byte) : bxor a b = bxor b a := by
  apply Fin.ext
  rw [bxor_val, bxor_val, Nat.xor_comm]

theorem xorBytes_comm (a b : List Byte) : xorBytes a b = xorBytes b a := by
  simp only [xorBytes]
  rw [List.zipWith_comm]
  congr 1
  funext x y
  exact bxor_comm y x

theorem xorBytes_cancel_left (a b : List Byte) (h : a.length = b.length) :
    xorBytes a (xorBytes a b) = b := by
  apply List.ext_getElem
  · simp [xorBytes, h]
  · intro j h1 h2
    simp [xorBytes, bxor_cancel_left]

theorem xorBytes_left_inj (a b c : List Byte) (hab : a.length = b.length) (hac : a.length = c.length)
    (h : xorBytes a c = xorBytes b c) : a = b := by
  apply List.ext_getElem hab
  intro j h1 h2
  have hj : j < (xorBytes a c).length := by simp [xorBytes]; omega
  have hj2 : j < (xorBytes b c).length := by simp [xorBytes]; omega
  have e : (xorBytes a c)[j] = (xorBytes b c)[j] := by simp only [h]
  simp only [xorBytes, List.getElem_zipWith] at e
  exact bxor_left_inj _ _ _ e

theorem xorBytes_right_inj (a b c : List Byte) (hab : a.length = b.length) (hac : a.length = c.length)
    (h : xorBytes a b = xorBytes a c) : b = c := by
  rw [xorBytes_comm a b, xorBytes_comm a c] at h
  exact xorBytes_left_inj b c a (by omega) (by omega) h

theorem block_zero (l : List Byte) (bs : Nat) : block l bs 0 = l.take bs := by
  simp [block]

theorem block_succ_append (a r : List Byte) (bs i : Nat) (h : a.length = bs) :
    block (a ++ r) bs (i + 1) = block r bs i := by
  have e : (i + 1) * bs = a.length + i * bs := by rw [h]; ring
  simp only [block, e, List.drop_append]

theorem block_zero_append (a r : List Byte) (bs : Nat) (h : a.length = bs) :
    block (a ++ r) bs 0 = a := by
  rw [block_zero, List.take_left' h]

theorem block_succ_drop (l : List Byte) (bs i : Nat) :
    block (l.drop bs) bs i = block l bs (i + 1) := by
  have e : (i + 1) * bs = bs + i * bs := by ring
  simp only [block, e, List.drop_drop]

theorem length_block (l : List Byte) (bs i n : Nat) (h : l.length = n * bs) (hi : i < n) :
    (block l bs i).length = bs := by
  simp only [block, List.length_take, List.length_drop, h]
  have : (i + 1) * bs ≤ n * bs := Nat.mul_le_mul_right bs hi
  have e : (i + 1) * bs = i * bs + bs := by ring
  omega

theorem length_encChain (f : List Byte → List Byte) (bs : Nat)
    (hf : ∀ b : List Byte, b.length = bs → (f b).length = bs) (n : Nat) :
    ∀ (prev p : List Byte), prev.length = bs → p.length = n * bs →
      (encChain f bs n prev p).length = n * bs := by
  induction n with
  | zero => intro prev p _ _; simp [encChain]
  | succ n ih =>
    intro prev p hprev hp
    have e : (n + 1) * bs = bs + n * bs := by ring
    rw [e] at hp ⊢
    have hx : (xorBytes prev (p.take bs)).length = bs := by
      simp [length_xorBytes, hprev, hp]
    simp only [encChain, List.length_append, hf _ hx]
    rw [ih _ _ (hf _ hx) (by simp [hp])]

theorem length_decChain (f : List Byte → List Byte) (bs : Nat)
    (hf : ∀ b : List Byte, b.length = bs → (f b).length = bs) (n : Nat) :
    ∀ (prev p : List Byte), prev.length = bs → p.length = n * bs →
      (decChain f bs n prev p).length = n * bs := by
  induction n with
  | zero => intro prev p _ _; simp [decChain]
  | succ n ih =>
    intro prev p hprev hp
    have e : (n + 1) * bs = bs + n * bs := by ring
    rw [e] at hp ⊢
    have ht : (p.take bs).length = bs := by simp [hp]
    have hx : (xorBytes prev (f (p.take bs))).length = bs := by
      simp [length_xorBytes, hprev, hf _ ht]
    simp only [decChain, List.length_append, hx]
    rw [ih _ _ ht (by simp [hp])]

theorem block_encChain (f : List Byte → List Byte) (bs : Nat)
    (hf : ∀ b : List Byte, b.length = bs → (f b).length = bs) (n : Nat) :
    ∀ (prev p : List Byte) (i : Nat), prev.length = bs → p.length = n * bs → i < n →
      block (encChain f bs n prev p) bs i
        = f (xorBytes (if i = 0 then prev else block (encChain f bs n prev p) bs (i - 1))
            (block p bs i)) := by
  induction n with
  | zero => intro prev p i _ _ hi; omega
  | succ n ih =>
    intro prev p i hprev hp hi
    have e : (n + 1) * bs = bs + n * bs := by ring
    rw [e] at hp
    have hx : (xorBytes prev (p.take bs)).length = bs := by
      simp [length_xorBytes, hprev, hp]
    have hc := hf _ hx
    cases i with
    | zero =>
      simp only [encChain, block_zero_append _ _ _ hc, if_true, block_zero]
    | succ i =>
      simp only [encChain, block_succ_append _ _ _ _ hc, Nat.add_sub_cancel]
      rw [ih _ _ i hc (by simp [hp]) (by omega), block_succ_drop]
      cases i with
      | zero => simp [block_zero_append _ _ _ hc]
      | succ i => simp [block_succ_append _ _ _ _ hc]

theorem block_decChain (f : List Byte → List Byte) (bs : Nat)
    (hf : ∀ b : List Byte, b.length = bs → (f b).length = bs) (n : Nat) :
    ∀ (prev p : List Byte) (i : Nat), prev.length = bs → p.length = n * bs → i < n →
      block (decChain f bs n prev p) bs i
        = xorBytes (if i = 0 then prev else block p bs (i - 1)) (f (block p bs i)) := by
  induction n with
  | zero => intro prev p i _ _ hi; omega
  | succ n ih =>
    intro prev p i hprev hp hi
    have e : (n + 1) * bs = bs + n * bs := by ring
    rw [e] at hp
    have ht : (p.take bs).length = bs := by simp [hp]
    have hx : (xorBytes prev (f (p.take bs))).length = bs := by
      simp [length_xorBytes, hprev, hf _ ht]
    cases i with
    | zero =>
      simp only [decChain, block_zero_append _ _ _ hx, if_true, block_zero]
    | succ i =>
      simp only [decChain, block_succ_append _ _ _ _ hx, Nat.add_sub_cancel]
      rw [ih _ _ i ht (by simp [hp]) (by omega), block_succ_drop]
      cases i with
      | zero => simp [block]
      | succ i => simp [block_succ_drop]

theorem decChain_encChain (E D : List Byte → List Byte) (bs : Nat)
    (hE : ∀ b : List Byte, b.length = bs → (E b).length = bs)
    (hinv : ∀ b : List Byte, b.length = bs → D (E b) = b) (n : Nat) :
    ∀ (prev p : List Byte), prev.length = bs → p.length = n * bs →
      decChain D bs n prev (encChain E bs n prev p) = p := by
  induction n with
  | zero =>
    intro prev p _ hp
    have : p = [] := List.length_eq_zero.mp (by simpa using hp)
    simp [decChain, this]
  | succ n ih =>
    intro prev p hprev hp
    have e : (n + 1) * bs = bs + n * bs := by ring
    rw [e] at hp
    have ht : (p.take bs).length = bs := by simp [hp]
    have hx : (xorBytes prev (p.take bs)).length = bs := by
      simp [length_xorBytes, hprev, hp]
    have hc := hE _ hx
    simp only [encChain, decChain, List.take_left' hc, List.drop_left' hc, hinv _ hx]
    rw [xorBytes_cancel_left _ _ (by rw [hprev, ht]), ih _ _ hc (by simp [hp]),
      List.take_append_drop]

theorem readN_writeN_of_length (mem : Mem) (off k : Nat) (l : List Byte) (h : l.length = k) :
    readN (writeN mem off l) off k = l := by
  rw [← h, readN_writeN_same]

theorem Slice.SafeFor.of_disjoint {dst src : Slice} (h : dst.Disjoint src) : dst.SafeFor src := by
  unfold Slice.Disjoint at h
  unfold Slice.SafeFor
  omega

theorem Slice.SafeFor.same (s : Slice) : s.SafeFor s := Or.inl (Nat.le_refl _)

theorem length_bytes (s : Slice) (mem : Mem) : (s.bytes mem).length = s.len := by
  simp [Slice.bytes, length_readN]

theorem len_eq_div_mul (n bs : Nat) (h : n % bs = 0) : n = n / bs * bs :=
  (Nat.div_mul_cancel (Nat.dvd_of_mod_eq_zero h)).symm

/-- Blocks before the first changed plaintext block encrypt alike. -/
theorem encChain_agree_before (f : List Byte → List Byte) (bs : Nat)
    (hf : ∀ b : List Byte, b.length = bs → (f b).length = bs) (n : Nat)
    (prev p q : List Byte) (hprev : prev.length = bs) (hp : p.length = n * bs)
    (hq : q.length = n * bs) (i : Nat)
    (hag : ∀ j, j < i → block p bs j = block q bs j) :
    ∀ j, j < i → j < n →
      block (encChain f bs n prev p) bs j = block (encChain f bs n prev q) bs j := by
  intro j
  induction j with
  | zero =>
    intro h0 hn
    rw [block_encChain f bs hf n prev p 0 hprev hp hn, block_encChain f bs hf n prev q 0 hprev hq hn]
    simp [hag 0 h0]
  | succ j ih =>
    intro h0 hn
    rw [block_encChain f bs hf n prev p (j + 1) hprev hp hn,
      block_encChain f bs hf n prev q (j + 1) hprev hq hn]
    simp only [Nat.add_sub_cancel, Nat.succ_ne_zero, if_false]
    rw [ih (by omega) (by omega), hag (j + 1) h0]

/-- From the changed plaintext block on, every ciphertext block differs. -/
theorem encChain_differ_from (f : List Byte → List Byte) (bs : Nat)
    (hf : ∀ b : List Byte, b.length = bs → (f b).length = bs)
    (hinj : ∀ a b : List Byte, a.length = bs → b.length = bs → f a = f b → a = b) (n : Nat)
    (prev p q : List Byte) (hprev : prev.length = bs) (hp : p.length = n * bs)
    (hq : q.length = n * bs) (i : Nat)
    (hag : ∀ j, j < n → j ≠ i → block p bs j = block q bs j)
    (hdiff : block p bs i ≠ block q bs i) :
    ∀ k, i + k < n →
      block (encChain f bs n prev p) bs (i + k) ≠ block (encChain f bs n prev q) bs (i + k) := by
  have hlp := length_encChain f bs hf n prev p hprev hp
  have hlq := length_encChain f bs hf n prev q hprev hq
  intro k
  induction k with
  | zero =>
    intro hn
    have hn' : i < n := by omega
    rw [Nat.add_zero, block_encChain f bs hf n prev p i hprev hp hn',
      block_encChain f bs hf n prev q i hprev hq hn']
    have hbp := length_block p bs i n hp hn'
    have hbq := length_block q bs i n hq hn'
    have hprevEq : (if i = 0 then prev else block (encChain f bs n prev p) bs (i - 1))
        = (if i = 0 then prev else block (encChain f bs n prev q) bs (i - 1)) := by
      by_cases h0 : i = 0
      · simp [h0]
      · simp only [h0, if_false]
        exact encChain_agree_before f bs hf n prev p q hprev hp hq i
          (fun j hj => hag j (by omega) (by omega)) (i - 1) (by omega) (by omega)
    have hpl : (if i = 0 then prev else block (encChain f bs n prev q) bs (i - 1)).length = bs := by
      by_cases h0 : i = 0
      · simp [h0, hprev]
      · simp only [h0, if_false]
        exact length_block _ bs (i - 1) n hlq (by omega)
    rw [hprevEq]
    intro hEq
    have h1 := hinj _ _ (by simp [length_xorBytes, hpl, hbp]) (by simp [length_xorBytes, hpl, hbq]) hEq
    exact hdiff (xorBytes_right_inj _ _ _ (by rw [hpl, hbp]) (by rw [hpl, hbq]) h1)
  | succ k ih =>
    intro hn
    have hne : ¬ (i + (k + 1) = 0) := by omega
    rw [block_encChain f bs hf n prev p (i + (k + 1)) hprev hp hn,
      block_encChain f bs hf n prev q (i + (k + 1)) hprev hq hn]
    simp only [hne, if_false]
    have e : i + (k + 1) - 1 = i + k := by omega
    rw [e, hag (i + (k + 1)) hn (by omega)]
    have h1 := length_block _ bs (i + k) n hlp (by omega)
    have h2 := length_block _ bs (i + k) n hlq (by omega)
    have h3 := length_block q bs (i + (k + 1)) n hq hn
    intro hEq
    have h4 := hinj _ _ (by simp [length_xorBytes, h1, h3]) (by simp [length_xorBytes, h2, h3]) hEq
    exact ih (by omega) (xorBytes_left_inj _ _ _ (by rw [h1, h2]) (by rw [h1, h3]) h4)

theorem length_encChain_bytes (cphr : Block) (iv : List Byte) (mem : Mem) (src : Slice)
    (hiv : iv.length = cphr.BlockSize) (hsrc : src.len % cphr.BlockSize = 0) :
    (encChain cphr.Encrypt cphr.BlockSize (src.len / cphr.BlockSize) iv (src.bytes mem)).length
      = src.len := by
  have hn := len_eq_div_mul src.len cphr.BlockSize hsrc
  rw [length_encChain cphr.Encrypt cphr.BlockSize cphr.Encrypt_length _ iv _ hiv
    (by rw [length_bytes]; exact hn)]
  exact hn.symm

theorem length_decChain_bytes (cphr : Block) (iv : List Byte) (mem : Mem) (src : Slice)
    (hiv : iv.length = cphr.BlockSize) (hsrc : src.len % cphr.BlockSize = 0) :
    (decChain cphr.Decrypt cphr.BlockSize (src.len / cphr.BlockSize) iv (src.bytes mem)).length
      = src.len := by
  have hn := len_eq_div_mul src.len cphr.BlockSize hsrc
  rw [length_decChain cphr.Decrypt cphr.BlockSize cphr.Decrypt_length _ iv _ hiv
    (by rw [length_bytes]; exact hn)]
  exact hn.symm

/-- A fresh encrypter run on a block-aligned input: the result in closed form. -/
theorem fresh_enc_CryptBlocks (cphr : Block) (iv : List Byte) (mem : Mem) (dst src : Slice)
    (hB : 0 < cphr.BlockSize) (hiv : iv.length = cphr.BlockSize)
    (hsrc : src.len % cphr.BlockSize = 0) (hdst : src.len ≤ dst.len) (hal : dst.SafeFor src) :
    (NewCBCEncrypter cphr iv).CryptBlocks mem dst src = .returned
      (encEngine cphr.BlockSize (src.len / cphr.BlockSize) (NewCBCEncrypter cphr iv) (src.bytes mem),
       writeN mem dst.off
        (encChain cphr.Encrypt cphr.BlockSize (src.len / cphr.BlockSize) iv (src.bytes mem))) :=
  enc_CryptBlocks (NewCBCEncrypter cphr iv) mem dst src hB hiv (List.length_replicate _ _)
    hsrc hdst hal

/-- A fresh decrypter run on a block-aligned input: the result in closed form. -/
theorem fresh_dec_CryptBlocks (cphr : Block) (iv : List Byte) (mem : Mem) (dst src : Slice)
    (hB : 0 < cphr.BlockSize) (hiv : iv.length = cphr.BlockSize)
    (hsrc : src.len % cphr.BlockSize = 0) (hdst : src.len ≤ dst.len) (hal : dst.SafeFor src) :
    (NewCBCDecrypter cphr iv).CryptBlocks mem dst src = .returned
      (decEngine cphr.BlockSize (src.len / cphr.BlockSize) (NewCBCDecrypter cphr iv) (src.bytes mem),
       writeN mem dst.off
        (decChain cphr.Decrypt cphr.BlockSize (src.len / cphr.BlockSize) iv (src.bytes mem))) :=
  dec_CryptBlocks (NewCBCDecrypter cphr iv) mem dst src hB hiv (List.length_replicate _ _)
    hsrc hdst hal

theorem length_encChain_engine (c : CBCEncrypter) (mem : Mem) (src : Slice)
    (hblk : c.blk.length = c.BlockSize) (hsrc : src.len % c.BlockSize = 0) :
    (encChain c.ecb.crypt c.BlockSize (src.len / c.BlockSize) c.blk (src.bytes mem)).length
      = src.len := by
  have hn := len_eq_div_mul src.len c.BlockSize hsrc
  rw [length_encChain c.ecb.crypt c.BlockSize c.ecb.crypt_length _ c.blk _ hblk
    (by rw [length_bytes]; exact hn)]
  exact hn.symm

theorem length_decChain_engine (c : CBCDecrypter) (mem : Mem) (src : Slice)
    (hblk : c.blk.length = c.BlockSize) (hsrc : src.len % c.BlockSize = 0) :
    (decChain c.ecb.crypt c.BlockSize (src.len / c.BlockSize) c.blk (src.bytes mem)).length
      = src.len := by
  have hn := len_eq_div_mul src.len c.BlockSize hsrc
  rw [length_decChain c.ecb.crypt c.BlockSize c.ecb.crypt_length _ c.blk _ hblk
    (by rw [length_bytes]; exact hn)]
  exact hn.symm

theorem incByte_decByte (b : Byte) : decByte (incByte b) = b := by
  simp [incByte, decByte]

theorem toyBlock_inv (n : Nat) (b : List Byte) :
    (toyBlock n).Decrypt ((toyBlock n).Encrypt b) = b := by
  simp only [toyBlock, List.map_reverse, List.reverse_reverse, List.map_map]
  have : decByte ∘ incByte = id := by
    funext x
    exact incByte_decByte x
  rw [this, List.map_id]

theorem toyBlock_inj (n : Nat) (a b : List Byte) (h : (toyBlock n).Encrypt a = (toyBlock n).Encrypt b) :
    a = b := by
  rw [← toyBlock_inv n a, ← toyBlock_inv n b, h]

theorem encEngine_ecb (bs n : Nat) : ∀ (c : CBCEncrypter) (p : List Byte),
    (encEngine bs n c p).ecb = c.ecb := by
  induction n with
  | zero => intro c p; rfl
  | succ n ih => intro c p; simp only [encEngine]; rw [ih]

theorem decEngine_ecb (bs n : Nat) : ∀ (c : CBCDecrypter) (p : List Byte),
    (decEngine bs n c p).ecb = c.ecb := by
  induction n with
  | zero => intro c p; rfl
  | succ n ih => intro c p; simp only [decEngine]; rw [ih]

/-- After at least one block the encrypter's chain register is the last ciphertext block. -/
theorem encEngine_blk (bs n : Nat) : ∀ (c : CBCEncrypter) (p : List Byte),
    c.ecb.blockSize = bs → c.blk.length = bs → p.length = (n + 1) * bs →
    (encEngine bs (n + 1) c p).blk = block (encChain c.ecb.crypt bs (n + 1) c.blk p) bs n := by
  induction n with
  | zero =>
    intro c p hbs hblk hp
    have hx : (xorBytes c.blk (p.take bs)).length = bs := by
      simp [length_xorBytes, hblk]; omega
    have hc := c.ecb.crypt_length _ (by rw [hx, hbs])
    rw [hbs] at hc
    simp only [encEngine, encChain]
    rw [block_zero_append _ _ _ hc]
  | succ n ih =>
    intro c p hbs hblk hp
    have e : (n + 1 + 1) * bs = bs + (n + 1) * bs := by ring
    rw [e] at hp
    have hx : (xorBytes c.blk (p.take bs)).length = bs := by
      simp [length_xorBytes, hblk, hp]
    have hc := c.ecb.crypt_length _ (by rw [hx, hbs])
    rw [hbs] at hc
    rw [encEngine, encChain, block_succ_append _ _ _ _ hc]
    exact ih ⟨c.ecb, c.ecb.crypt (xorBytes c.blk (p.take bs)), xorBytes c.blk (p.take bs)⟩
      (p.drop bs) hbs hc (by simp [hp])

/-- After at least one block the decrypter's chain register is the last input block. -/
theorem decEngine_blk (bs n : Nat) : ∀ (c : CBCDecrypter) (p : List Byte),
    (decEngine bs (n + 1) c p).blk = block p bs n := by
  induction n with
  | zero => intro c p; simp only [decEngine, block_zero]
  | succ n ih =>
    intro c p
    rw [decEngine, ih, block_succ_drop]

/-- The encrypter keeps its buffers at `bs` bytes. -/
theorem encEngine_lengths (bs n : Nat) : ∀ (c : CBCEncrypter) (p : List Byte),
    c.ecb.blockSize = bs → c.blk.length = bs → c.work.length = bs → p.length = n * bs →
    (encEngine bs n c p).blk.length = bs ∧ (encEngine bs n c p).work.length = bs := by
  induction n with
  | zero => intro c p _ hblk hwork _; exact ⟨hblk, hwork⟩
  | succ n ih =>
    intro c p hbs hblk hwork hp
    have e : (n + 1) * bs = bs + n * bs := by ring
    rw [e] at hp
    have hx : (xorBytes c.blk (p.take bs)).length = bs := by
      simp [length_xorBytes, hblk, hp]
    have hc := c.ecb.crypt_length _ (by rw [hx, hbs])
    rw [hbs] at hc
    rw [encEngine]
    exact ih ⟨c.ecb, c.ecb.crypt (xorBytes c.blk (p.take bs)), xorBytes c.blk (p.take bs)⟩
      (p.drop bs) hbs hc hx (by simp [hp])

/-- The decrypter keeps its buffers at `bs` bytes. -/
theorem decEngine_lengths (bs n : Nat) : ∀ (c : CBCDecrypter) (p : List Byte),
    c.ecb.blockSize = bs → c.blk.length = bs → c.work.length = bs → p.length = n * bs →
    (decEngine bs n c p).blk.length = bs ∧ (decEngine bs n c p).work.length = bs := by
  induction n with
  | zero => intro c p _ hblk hwork _; exact ⟨hblk, hwork⟩
  | succ n ih =>
    intro c p hbs hblk hwork hp
    have e : (n + 1) * bs = bs + n * bs := by ring
    rw [e] at hp
    have ht : (p.take bs).length = bs := by simp [hp]
    have hc := c.ecb.crypt_length _ (by rw [ht, hbs])
    rw [hbs] at hc
    rw [decEngine]
    exact ih ⟨c.ecb, p.take bs, c.ecb.crypt (p.take bs)⟩ (p.drop bs) hbs ht hc (by simp [hp])

theorem take_append_block (p1 p2 : List Byte) (bs n : Nat) (h : p1.length = bs + n * bs) :
    (p1 ++ p2).take bs = p1.take bs ∧ (p1 ++ p2).drop bs = p1.drop bs ++ p2 := by
  constructor
  · exact List.take_append_of_le_length (by omega)
  · exact List.drop_append_of_le_length (by omega)

/-- Running `n1 + n2` blocks is running `n1` blocks and then `n2` blocks (encrypter state). -/
theorem encEngine_add (bs n1 n2 : Nat) : ∀ (c : CBCEncrypter) (p1 p2 : List Byte),
    p1.length = n1 * bs →
    encEngine bs (n1 + n2) c (p1 ++ p2) = encEngine bs n2 (encEngine bs n1 c p1) p2 := by
  induction n1 with
  | zero =>
    intro c p1 p2 hp
    have : p1 = [] := List.length_eq_zero.mp (by simpa using hp)
    subst this
    simp only [Nat.zero_add, List.nil_append, encEngine]
  | succ n1 ih =>
    intro c p1 p2 hp
    have e : (n1 + 1) * bs = bs + n1 * bs := by ring
    rw [e] at hp
    have e2 : n1 + 1 + n2 = (n1 + n2) + 1 := by omega
    obtain ⟨t1, t2⟩ := take_append_block p1 p2 bs n1 hp
    rw [e2]
    simp only [encEngine, t1, t2]
    exact ih _ _ _ (by simp [hp])

/-- Running `n1 + n2` blocks is running `n1` blocks and then `n2` blocks (encrypter output). -/
theorem encChain_add (bs n1 n2 : Nat) : ∀ (c : CBCEncrypter) (p1 p2 : List Byte),
    p1.length = n1 * bs →
    encChain c.ecb.crypt bs (n1 + n2) c.blk (p1 ++ p2)
      = encChain c.ecb.crypt bs n1 c.blk p1
        ++ encChain c.ecb.crypt bs n2 (encEngine bs n1 c p1).blk p2 := by
  induction n1 with
  | zero =>
    intro c p1 p2 hp
    have : p1 = [] := List.length_eq_zero.mp (by simpa using hp)
    subst this
    simp only [Nat.zero_add, List.nil_append, encEngine, encChain]
  | succ n1 ih =>
    intro c p1 p2 hp
    have e : (n1 + 1) * bs = bs + n1 * bs := by ring
    rw [e] at hp
    have e2 : n1 + 1 + n2 = (n1 + n2) + 1 := by omega
    obtain ⟨t1, t2⟩ := take_append_block p1 p2 bs n1 hp
    rw [e2]
    simp only [encEngine, encChain, t1, t2, List.append_assoc]
    congr 1
    exact ih ⟨c.ecb, c.ecb.crypt (xorBytes c.blk (p1.take bs)), xorBytes c.blk (p1.take bs)⟩
      (p1.drop bs) p2 (by simp [hp])

/-- Running `n1 + n2` blocks is running `n1` blocks and then `n2` blocks (decrypter state). -/
theorem decEngine_add (bs n1 n2 : Nat) : ∀ (c : CBCDecrypter) (p1 p2 : List Byte),
    p1.length = n1 * bs →
    decEngine bs (n1 + n2) c (p1 ++ p2) = decEngine bs n2 (decEngine bs n1 c p1) p2 := by
  induction n1 with
  | zero =>
    intro c p1 p2 hp
    have : p1 = [] := List.length_eq_zero.mp (by simpa using hp)
    subst this
    simp only [Nat.zero_add, List.nil_append, decEngine]
  | succ n1 ih =>
    intro c p1 p2 hp
    have e : (n1 + 1) * bs = bs + n1 * bs := by ring
    rw [e] at hp
    have e2 : n1 + 1 + n2 = (n1 + n2) + 1 := by omega
    obtain ⟨t1, t2⟩ := take_append_block p1 p2 bs n1 hp
    rw [e2]
    simp only [decEngine, t1, t2]
    exact ih _ _ _ (by simp [hp])

/-- Running `n1 + n2` blocks is running `n1` blocks and then `n2` blocks (decrypter output). -/
theorem decChain_add (bs n1 n2 : Nat) : ∀ (c : CBCDecrypter) (p1 p2 : List Byte),
    p1.length = n1 * bs →
    decChain c.ecb.crypt bs (n1 + n2) c.blk (p1 ++ p2)
      = decChain c.ecb.crypt bs n1 c.blk p1
        ++ decChain c.ecb.crypt bs n2 (decEngine bs n1 c p1).blk p2 := by
  induction n1 with
  | zero =>
    intro c p1 p2 hp
    have : p1 = [] := List.length_eq_zero.mp (by simpa using hp)
    subst this
    simp only [Nat.zero_add, List.nil_append, decEngine, decChain]
  | succ n1 ih =>
    intro c p1 p2 hp
    have e : (n1 + 1) * bs = bs + n1 * bs := by ring
    rw [e] at hp
    have e2 : n1 + 1 + n2 = (n1 + n2) + 1 := by omega
    obtain ⟨t1, t2⟩ := take_append_block p1 p2 bs n1 hp
    rw [e2]
    simp only [decEngine, decChain, t1, t2, List.append_assoc]
    congr 1
    exact ih ⟨c.ecb, p1.take bs, c.ecb.crypt (p1.take bs)⟩ (p1.drop bs) p2 (by simp [hp])

theorem enc_chunking (c : CBCEncrypter) (mem : Mem) (dOff sOff n1 n2 : Nat)
    (hpos : 0 < c.BlockSize) (hblk : c.blk.length = c.BlockSize)
    (hwork : c.work.length = c.BlockSize)
    (hal : dOff ≤ sOff ∨ sOff + (n1 + n2) * c.BlockSize ≤ dOff) :
    ∃ (e1 : CBCEncrypter) (m1 : Mem) (e2 : CBCEncrypter) (m2 : Mem),
      c.CryptBlocks mem ⟨dOff, n1 * c.BlockSize⟩ ⟨sOff, n1 * c.BlockSize⟩ = .returned (e1, m1) ∧
      e1.CryptBlocks m1 ⟨dOff + n1 * c.BlockSize, n2 * c.BlockSize⟩
        ⟨sOff + n1 * c.BlockSize, n2 * c.BlockSize⟩ = .returned (e2, m2) ∧
      c.CryptBlocks mem ⟨dOff, (n1 + n2) * c.BlockSize⟩ ⟨sOff, (n1 + n2) * c.BlockSize⟩
        = .returned (e2, m2) ∧
      readN m1 dOff (n1 * c.BlockSize) ++ readN m2 (dOff + n1 * c.BlockSize) (n2 * c.BlockSize)
        = readN m2 dOff ((n1 + n2) * c.BlockSize) := by
  have hadd : (n1 + n2) * c.BlockSize = n1 * c.BlockSize + n2 * c.BlockSize := by ring
  have hX : (readN mem sOff (n1 * c.BlockSize)).length = n1 * c.BlockSize := length_readN _ _ _
  have hC1 := length_encChain c.ecb.crypt c.BlockSize c.ecb.crypt_length n1 c.blk _ hblk hX
  have hl := encEngine_lengths c.BlockSize n1 c _ rfl hblk hwork hX
  have hecb := encEngine_ecb c.BlockSize n1 c (readN mem sOff (n1 * c.BlockSize))
  have hbs1 : (encEngine c.BlockSize n1 c (readN mem sOff (n1 * c.BlockSize))).BlockSize
      = c.BlockSize := congrArg BlockMode.blockSize hecb
  -- the first call
  have h1 := enc_CryptBlocks c mem ⟨dOff, n1 * c.BlockSize⟩ ⟨sOff, n1 * c.BlockSize⟩ hpos hblk
    hwork (Nat.mul_mod_left _ _) (Nat.le_refl _) (by simp only [Slice.SafeFor]; omega)
  simp only [Slice.bytes, Nat.mul_div_cancel _ hpos] at h1
  -- the second call, on the state the first one left
  have h2 := enc_CryptBlocks (encEngine c.BlockSize n1 c (readN mem sOff (n1 * c.BlockSize)))
    (writeN mem dOff (encChain c.ecb.crypt c.BlockSize n1 c.blk (readN mem sOff (n1 * c.BlockSize))))
    ⟨dOff + n1 * c.BlockSize, n2 * c.BlockSize⟩ ⟨sOff + n1 * c.BlockSize, n2 * c.BlockSize⟩
    (by rw [hbs1]; exact hpos) (by rw [hbs1]; exact hl.1) (by rw [hbs1]; exact hl.2)
    (by rw [hbs1]; exact Nat.mul_mod_left _ _) (Nat.le_refl _)
    (by simp only [Slice.SafeFor]; omega)
  have hY : readN (writeN mem dOff
      (encChain c.ecb.crypt c.BlockSize n1 c.blk (readN mem sOff (n1 * c.BlockSize))))
      (sOff + n1 * c.BlockSize) (n2 * c.BlockSize)
      = readN mem (sOff + n1 * c.BlockSize) (n2 * c.BlockSize) := by
    apply readN_writeN_of_disjoint
    rw [hC1]
    omega
  simp only [Slice.bytes, hbs1, Nat.mul_div_cancel _ hpos, hY, hecb] at h2
  -- the single call
  have h3 := enc_CryptBlocks c mem ⟨dOff, (n1 + n2) * c.BlockSize⟩ ⟨sOff, (n1 + n2) * c.BlockSize⟩
    hpos hblk hwork (Nat.mul_mod_left _ _) (Nat.le_refl _) (by simp only [Slice.SafeFor]; omega)
  simp only [Slice.bytes, Nat.mul_div_cancel _ hpos] at h3
  rw [hadd, readN_add, encEngine_add _ _ _ _ _ _ hX, encChain_add _ _ _ _ _ _ hX,
    ← writeN_append_of_length _ _ _ _ _ hC1, ← hadd] at h3
  refine ⟨_, _, _, _, h1, h2, h3, ?_⟩
  have hC2 := length_encChain c.ecb.crypt c.BlockSize c.ecb.crypt_length n2
    (encEngine c.BlockSize n1 c (readN mem sOff (n1 * c.BlockSize))).blk
    (readN mem (sOff + n1 * c.BlockSize) (n2 * c.BlockSize)) hl.1 (length_readN _ _ _)
  rw [hadd, readN_add, readN_writeN_of_length _ _ _ _ hC1]
  congr 1
  rw [readN_writeN_of_disjoint _ _ _ _ _ (by rw [hC2]; omega),
    readN_writeN_of_length _ _ _ _ hC1]

theorem dec_chunking (c : CBCDecrypter) (mem : Mem) (dOff sOff n1 n2 : Nat)
    (hpos : 0 < c.BlockSize) (hblk : c.blk.length = c.BlockSize)
    (hwork : c.work.length = c.BlockSize)
    (hal : dOff ≤ sOff ∨ sOff + (n1 + n2) * c.BlockSize ≤ dOff) :
    ∃ (d1 : CBCDecrypter) (m1 : Mem) (d2 : CBCDecrypter) (m2 : Mem),
      c.CryptBlocks mem ⟨dOff, n1 * c.BlockSize⟩ ⟨sOff, n1 * c.BlockSize⟩ = .returned (d1, m1) ∧
      d1.CryptBlocks m1 ⟨dOff + n1 * c.BlockSize, n2 * c.BlockSize⟩
        ⟨sOff + n1 * c.BlockSize, n2 * c.BlockSize⟩ = .returned (d2, m2) ∧
      c.CryptBlocks mem ⟨dOff, (n1 + n2) * c.BlockSize⟩ ⟨sOff, (n1 + n2) * c.BlockSize⟩
        = .returned (d2, m2) ∧
      readN m1 dOff (n1 * c.BlockSize) ++ readN m2 (dOff + n1 * c.BlockSize) (n2 * c.BlockSize)
        = readN m2 dOff ((n1 + n2) * c.BlockSize) := by
  have hadd : (n1 + n2) * c.BlockSize = n1 * c.BlockSize + n2 * c.BlockSize := by ring
  have hX : (readN mem sOff (n1 * c.BlockSize)).length = n1 * c.BlockSize := length_readN _ _ _
  have hC1 := length_decChain c.ecb.crypt c.BlockSize c.ecb.crypt_length n1 c.blk _ hblk hX
  have hl := decEngine_lengths c.BlockSize n1 c _ rfl hblk hwork hX
  have hecb := decEngine_ecb c.BlockSize n1 c (readN mem sOff (n1 * c.BlockSize))
  have hbs1 : (decEngine c.BlockSize n1 c (readN mem sOff (n1 * c.BlockSize))).BlockSize
      = c.BlockSize := congrArg BlockMode.blockSize hecb
  -- the first call
  have h1 := dec_CryptBlocks c mem ⟨dOff, n1 * c.BlockSize⟩ ⟨sOff, n1 * c.BlockSize⟩ hpos hblk
    hwork (Nat.mul_mod_left _ _) (Nat.le_refl _) (by simp only [Slice.SafeFor]; omega)
  simp only [Slice.bytes, Nat.mul_div_cancel _ hpos] at h1
  -- the second call, on the state the first one left
  have h2 := dec_CryptBlocks (decEngine c.BlockSize n1 c (readN mem sOff (n1 * c.BlockSize)))
    (writeN mem dOff (decChain c.ecb.crypt c.BlockSize n1 c.blk (readN mem sOff (n1 * c.BlockSize))))
    ⟨dOff + n1 * c.BlockSize, n2 * c.BlockSize⟩ ⟨sOff + n1 * c.BlockSize, n2 * c.BlockSize⟩
    (by rw [hbs1]; exact hpos) (by rw [hbs1]; exact hl.1) (by rw [hbs1]; exact hl.2)
    (by rw [hbs1]; exact Nat.mul_mod_left _ _) (Nat.le_refl _)
    (by simp only [Slice.SafeFor]; omega)
  have hY : readN (writeN mem dOff
      (decChain c.ecb.crypt c.BlockSize n1 c.blk (readN mem sOff (n1 * c.BlockSize))))
      (sOff + n1 * c.BlockSize) (n2 * c.BlockSize)
      = readN mem (sOff + n1 * c.BlockSize) (n2 * c.BlockSize) := by
    apply readN_writeN_of_disjoint
    rw [hC1]
    omega
  simp only [Slice.bytes, hbs1, Nat.mul_div_cancel _ hpos, hY, hecb] at h2
  -- the single call
  have h3 := dec_CryptBlocks c mem ⟨dOff, (n1 + n2) * c.BlockSize⟩ ⟨sOff, (n1 + n2) * c.BlockSize⟩
    hpos hblk hwork (Nat.mul_mod_left _ _) (Nat.le_refl _) (by simp only [Slice.SafeFor]; omega)
  simp only [Slice.bytes, Nat.mul_div_cancel _ hpos] at h3
  rw [hadd, readN_add, decEngine_add _ _ _ _ _ _ hX, decChain_add _ _ _ _ _ _ hX,
    ← writeN_append_of_length _ _ _ _ _ hC1, ← hadd] at h3
  refine ⟨_, _, _, _, h1, h2, h3, ?_⟩
  have hC2 := length_decChain c.ecb.crypt c.BlockSize c.ecb.crypt_length n2
    (decEngine c.BlockSize n1 c (readN mem sOff (n1 * c.BlockSize))).blk
    (readN mem (sOff + n1 * c.BlockSize) (n2 * c.BlockSize)) hl.1 (length_readN _ _ _)
  rw [hadd, readN_add, readN_writeN_of_length _ _ _ _ hC1]
  congr 1
  rw [readN_writeN_of_disjoint _ _ _ _ _ (by rw [hC2]; omega),
    readN_writeN_of_length _ _ _ _ hC1]

/-- A well-formed decrypter's call in closed form, with the chain register it ends in. -/
theorem dec_chain_register (c : CBCDecrypter) (mem : Mem) (dst src : Slice)
    (hpos : 0 < c.BlockSize) (hblk : c.blk.length = c.BlockSize)
    (hwork : c.work.length = c.BlockSize) (hsrc : src.len % c.BlockSize = 0)
    (hdst : src.len ≤ dst.len) (hal : dst.SafeFor src) :
    ∃ (c' : CBCDecrypter) (m : Mem),
      c.CryptBlocks mem dst src = .returned (c', m) ∧
      (0 < src.len → c'.blk = block (src.bytes mem) c.BlockSize (src.len / c.BlockSize - 1)) ∧
      (src.len = 0 → c'.blk = c.blk) := by
  refine ⟨_, _, dec_CryptBlocks c mem dst src hpos hblk hwork hsrc hdst hal, ?_, ?_⟩
  · intro h0
    obtain ⟨k, hk⟩ : ∃ k, src.len / c.BlockSize = k + 1 := by
      refine ⟨src.len / c.BlockSize - 1, ?_⟩
      have : 0 < src.len / c.BlockSize := Nat.div_pos (Nat.le_of_dvd h0 (Nat.dvd_of_mod_eq_zero hsrc)) hpos
      omega
    rw [hk, Nat.add_sub_cancel]
    exact decEngine_blk c.BlockSize k c _
  · intro h0
    simp only [h0, Nat.zero_div, decEngine]

theorem Outcome.andThen_returned {σ : Type} (o : Outcome σ) (f : σ → Outcome σ) (t : σ)
    (h : o.andThen f = .returned t) : ∃ s1, o = .returned s1 ∧ f s1 = .returned t := by
  cases o with
  | returned s => exact ⟨s, rfl, h⟩
  | panicked p s => simp [Outcome.andThen] at h
  | outOfFuel => simp [Outcome.andThen] at h

theorem Outcome.map_returned {σ τ : Type} (g : σ → τ) (o : Outcome σ) (t : τ)
    (h : o.map g = .returned t) : ∃ s, o = .returned s ∧ g s = t := by
  cases o with
  | returned s =>
    simp only [Outcome.map, Outcome.returned.injEq] at h
    exact ⟨s, rfl, h⟩
  | panicked p s => simp [Outcome.map] at h
  | outOfFuel => simp [Outcome.map] at h

theorem Machine.SameOutside.refl {E : Type} (lo hi : Nat) (s : Machine E) :
    Machine.SameOutside lo hi s s := ⟨rfl, rfl, fun _ _ => rfl⟩

theorem Machine.SameOutside.trans {E : Type} {lo hi : Nat} {s t u : Machine E}
    (h1 : Machine.SameOutside lo hi s t) (h2 : Machine.SameOutside lo hi t u) :
    Machine.SameOutside lo hi s u :=
  ⟨h2.1.trans h1.1, h2.2.1.trans h1.2.1, fun a ha => (h2.2.2 a ha).trans (h1.2.2 a ha)⟩

/-- A counted loop whose passes write only inside `[d, d + bs)` writes only there. -/
theorem forLoop_sameOutside {E : Type} (body : Nat → Machine E → Outcome (Machine E))
    (d bs : Nat)
    (hbody : ∀ i t u, i < bs → t.dst.off = d → body i t = .returned u →
      Machine.SameOutside d (d + bs) t u) (k : Nat) :
    ∀ (i : Nat) (s u : Machine E), i + k ≤ bs → s.dst.off = d →
      forLoop body k i s = .returned u → Machine.SameOutside d (d + bs) s u := by
  induction k with
  | zero =>
    intro i s u _ _ h
    simp only [forLoop, Outcome.returned.injEq] at h
    subst h
    exact Machine.SameOutside.refl _ _ _
  | succ k ih =>
    intro i s u hi hd h
    simp only [forLoop] at h
    obtain ⟨t, ht, hu⟩ := Outcome.andThen_returned _ _ _ h
    have h1 := hbody i s t (by omega) hd ht
    have h2 := ih (i + 1) t u (by omega) (by rw [h1.1]; exact hd) hu
    exact h1.trans h2

theorem enc_xorStep_sameOutside (d bs i : Nat) (t u : Machine CBCEncrypter)
    (h : CBCEncrypter.xorStep i t = .returned u) : Machine.SameOutside d (d + bs) t u := by
  simp only [CBCEncrypter.xorStep] at h
  split at h
  · simp only [Outcome.returned.injEq] at h
    subst h
    exact ⟨rfl, rfl, fun _ _ => rfl⟩
  · simp at h

theorem enc_ecbStep_sameOutside (d bs : Nat) (t u : Machine CBCEncrypter)
    (h : CBCEncrypter.ecbStep t = .returned u) : Machine.SameOutside d (d + bs) t u := by
  simp only [CBCEncrypter.ecbStep] at h
  split at h
  · simp only [Outcome.returned.injEq] at h
    subst h
    exact ⟨rfl, rfl, fun _ _ => rfl⟩
  · simp at h

theorem enc_copyStep_sameOutside (bs i : Nat) (t u : Machine CBCEncrypter) (hi : i < bs)
    (h : CBCEncrypter.copyStep i t = .returned u) :
    Machine.SameOutside t.dst.off (t.dst.off + bs) t u := by
  simp only [CBCEncrypter.copyStep] at h
  split at h
  · simp only [Outcome.returned.injEq] at h
    subst h
    refine ⟨rfl, rfl, fun a ha => ?_⟩
    have : a ≠ t.dst.off + i := by omega
    simp [Function.update, this]
  · simp at h

theorem advance_returned {E : Type} (bs : Nat) (t u : Machine E)
    (h : advance bs t = .returned u) :
    u.c = t.c ∧ u.mem = t.mem ∧ u.dst = t.dst.drop bs ∧ u.src = t.src.drop bs ∧ bs ≤ t.src.len := by
  simp only [advance] at h
  split at h
  · split at h
    · simp only [Outcome.returned.injEq] at h
      subst h
      exact ⟨rfl, rfl, rfl, rfl, by assumption⟩
    · simp at h
  · simp at h

/-- One pass of the encrypter's loop writes only the block at the head of `dst`. -/
theorem enc_iter_frame (bs : Nat) (s u : Machine CBCEncrypter)
    (h : CBCEncrypter.iter bs s = .returned u) :
    u.dst = s.dst.drop bs ∧ u.src = s.src.drop bs ∧ bs ≤ s.src.len ∧
    ∀ a, (a < s.dst.off ∨ s.dst.off + bs ≤ a) → u.mem a = s.mem a := by
  simp only [CBCEncrypter.iter] at h
  obtain ⟨s3, h3, h4⟩ := Outcome.andThen_returned _ _ _ h
  obtain ⟨s2, h2, h3⟩ := Outcome.andThen_returned _ _ _ h3
  obtain ⟨s1, h1, h2⟩ := Outcome.andThen_returned _ _ _ h2
  have r1 := forLoop_sameOutside CBCEncrypter.xorStep s.dst.off bs
    (fun i t u _ _ hb => enc_xorStep_sameOutside _ _ i t u hb) bs 0 s s1 (by omega) rfl h1
  have r2 := enc_ecbStep_sameOutside s.dst.off bs s1 s2 h2
  have d2 : s2.dst.off = s.dst.off := by rw [r2.1, r1.1]
  have r3 := forLoop_sameOutside CBCEncrypter.copyStep s.dst.off bs
    (fun i t u hi hd hb => by
      have := enc_copyStep_sameOutside bs i t u hi hb
      rw [hd] at this
      exact this) bs 0 s2 s3 (by omega) d2 h3
  have r := (r1.trans r2).trans r3
  obtain ⟨_, am, ad, as, al⟩ := advance_returned bs s3 u h4
  rw [r.1] at ad
  rw [r.2.1] at as al
  refine ⟨ad, as, al, fun a ha => ?_⟩
  rw [am]
  exact r.2.2 a ha

/-- The encrypter's loop writes only the first `len(src)` bytes of `dst`. -/
theorem enc_loop_frame (bs : Nat) (fuel : Nat) : ∀ (s u : Machine CBCEncrypter),
    CBCEncrypter.loop bs fuel s = .returned u →
    ∀ a, (a < s.dst.off ∨ s.dst.off + s.src.len ≤ a) → u.mem a = s.mem a := by
  induction fuel with
  | zero =>
    intro s u h a _
    simp only [CBCEncrypter.loop] at h
    split at h
    · simp at h
    · simp only [Outcome.returned.injEq] at h
      rw [← h]
  | succ fuel ih =>
    intro s u h a ha
    simp only [CBCEncrypter.loop] at h
    split at h
    · obtain ⟨t, ht, hu⟩ := Outcome.andThen_returned _ _ _ h
      obtain ⟨fd, fs, fl, fm⟩ := enc_iter_frame bs s t ht
      have h1 := ih t u hu a (by rw [fd, fs]; simp only [Slice.drop]; omega)
      rw [h1]
      exact fm a (by omega)
    · simp only [Outcome.returned.injEq] at h
      rw [← h]

/-- A call of the encrypter that returns has written only the first `len(src)` bytes of `dst`. -/
theorem enc_CryptBlocks_frame (c c' : CBCEncrypter) (mem m : Mem) (dst src : Slice)
    (h : c.CryptBlocks mem dst src = .returned (c', m)) :
    ∀ a, (a < dst.off ∨ dst.off + src.len ≤ a) → m a = mem a := by
  simp only [CBCEncrypter.CryptBlocks] at h
  split at h
  · simp at h
  · split at h
    · simp at h
    · split at h
      · simp at h
      · obtain ⟨u, hu, hs⟩ := Outcome.map_returned _ _ _ h
        have hm : u.mem = m := congrArg Prod.snd hs
        intro a ha
        rw [← hm]
        exact enc_loop_frame _ _ _ u hu a ha

theorem dec_ecbStep_sameOutside (d bs : Nat) (t u : Machine CBCDecrypter)
    (h : CBCDecrypter.ecbStep bs t = .returned u) :
    Machine.SameOutside d (d + bs) t u ∧ bs ≤ t.src.len := by
  simp only [CBCDecrypter.ecbStep] at h
  split at h
  · split at h
    · simp only [Outcome.returned.injEq] at h
      subst h
      exact ⟨⟨rfl, rfl, fun _ _ => rfl⟩, by assumption⟩
    · simp at h
  · simp at h

theorem dec_xorStep_sameOutside (bs i : Nat) (t u : Machine CBCDecrypter) (hi : i < bs)
    (h : CBCDecrypter.xorStep i t = .returned u) :
    Machine.SameOutside t.dst.off (t.dst.off + bs) t u := by
  simp only [CBCDecrypter.xorStep] at h
  split at h
  · split at h
    · simp only [Outcome.returned.injEq] at h
      subst h
      refine ⟨rfl, rfl, fun a ha => ?_⟩
      have : a ≠ t.dst.off + i := by omega
      simp [Function.update, this]
    · simp at h
  · simp at h

/-- One pass of the decrypter's loop writes only the block at the head of `dst`. -/
theorem dec_iter_frame (bs : Nat) (s u : Machine CBCDecrypter)
    (h : CBCDecrypter.iter bs s = .returned u) :
    u.dst = s.dst.drop bs ∧ u.src = s.src.drop bs ∧ bs ≤ s.src.len ∧
    ∀ a, (a < s.dst.off ∨ s.dst.off + bs ≤ a) → u.mem a = s.mem a := by
  simp only [CBCDecrypter.iter] at h
  obtain ⟨s2, h2, h3⟩ := Outcome.andThen_returned _ _ _ h
  obtain ⟨s1, h1, h2⟩ := Outcome.andThen_returned _ _ _ h2
  have r1 := (dec_ecbStep_sameOutside s.dst.off bs s s1 h1).1
  have d1 : s1.dst.off = s.dst.off := by rw [r1.1]
  have r2 := forLoop_sameOutside CBCDecrypter.xorStep s.dst.off bs
    (fun i t u hi hd hb => by
      have := dec_xorStep_sameOutside bs i t u hi hb
      rw [hd] at this
      exact this) bs 0 s1 s2 (by omega) d1 h2
  have r := r1.trans r2
  obtain ⟨_, am, ad, as, al⟩ := advance_returned bs s2 u h3
  rw [r.1] at ad
  rw [r.2.1] at as al
  refine ⟨ad, as, al, fun a ha => ?_⟩
  rw [am]
  exact r.2.2 a ha

/-- The decrypter's loop writes only the first `len(src)` bytes of `dst`. -/
theorem dec_loop_frame (bs : Nat) (fuel : Nat) : ∀ (s u : Machine CBCDecrypter),
    CBCDecrypter.loop bs fuel s = .returned u →
    ∀ a, (a < s.dst.off ∨ s.dst.off + s.src.len ≤ a) → u.mem a = s.mem a := by
  induction fuel with
  | zero =>
    intro s u h a _
    simp only [CBCDecrypter.loop] at h
    split at h
    · simp at h
    · simp only [Outcome.returned.injEq] at h
      rw [← h]
  | succ fuel ih =>
    intro s u h a ha
    simp only [CBCDecrypter.loop] at h
    split at h
    · obtain ⟨t, ht, hu⟩ := Outcome.andThen_returned _ _ _ h
      obtain ⟨fd, fs, fl, fm⟩ := dec_iter_frame bs s t ht
      have h1 := ih t u hu a (by rw [fd, fs]; simp only [Slice.drop]; omega)
      rw [h1]
      exact fm a (by omega)
    · simp only [Outcome.returned.injEq] at h
      rw [← h]

/-- A call of the decrypter that returns has written only the first `len(src)` bytes of `dst`. -/
theorem dec_CryptBlocks_frame (c c' : CBCDecrypter) (mem m : Mem) (dst src : Slice)
    (h : c.CryptBlocks mem dst src = .returned (c', m)) :
    ∀ a, (a < dst.off ∨ dst.off + src.len ≤ a) → m a = mem a := by
  simp only [CBCDecrypter.CryptBlocks] at h
  split at h
  · simp at h
  · split at h
    · simp at h
    · split at h
      · simp at h
      · obtain ⟨u, hu, hs⟩ := Outcome.map_returned _ _ _ h
        have hm : u.mem = m := congrArg Prod.snd hs
        intro a ha
        rw [← hm]
        exact dec_loop_frame _ _ _ u hu a ha

/-- A call that returns had `len(dst) ≥ len(src)`: the size check let it through. -/
theorem enc_CryptBlocks_returned_le (c c' : CBCEncrypter) (mem m : Mem) (dst src : Slice)
    (h : c.CryptBlocks mem dst src = .returned (c', m)) : src.len ≤ dst.len := by
  simp only [CBCEncrypter.CryptBlocks] at h
  split at h
  · simp at h
  · split at h
    · simp at h
    · split at h
      · simp at h
      · omega

theorem dec_CryptBlocks_returned_le (c c' : CBCDecrypter) (mem m : Mem) (dst src : Slice)
    (h : c.CryptBlocks mem dst src = .returned (c', m)) : src.len ≤ dst.len := by
  simp only [CBCDecrypter.CryptBlocks] at h
  split at h
  · simp at h
  · split at h
    · simp at h
    · split at h
      · simp at h
      · omega

/-- Under the contract the encrypter's loop returns after exactly `n` passes, whatever the
aliasing of `dst` and `src`: `n` units of fuel are enough, fewer are not. It keeps the engine
well-formed. -/
theorem enc_loop_runs (bs : Nat) (hpos : 0 < bs) (n : Nat) :
    ∀ (fuel : Nat) (s : Machine CBCEncrypter),
      s.c.ecb.blockSize = bs → s.c.blk.length = bs → s.c.work.length = bs →
      s.src.len = n * bs → s.src.len ≤ s.dst.len →
      (n ≤ fuel → ∃ u, CBCEncrypter.loop bs fuel s = .returned u ∧
        u.c.ecb = s.c.ecb ∧ u.c.blk.length = bs ∧ u.c.work.length = bs) ∧
      (fuel < n → CBCEncrypter.loop bs fuel s = .outOfFuel) := by
  induction n with
  | zero =>
    intro fuel s _ hblk hwork hlen _
    have h0 : ¬ (0 < s.src.len) := by omega
    refine ⟨fun _ => ⟨s, ?_, rfl, hblk, hwork⟩, fun h => by omega⟩
    cases fuel <;> simp [CBCEncrypter.loop, h0]
  | succ n ih =>
    intro fuel s hbs hblk hwork hlen hdst
    have e : (n + 1) * bs = bs + n * bs := by ring
    rw [e] at hlen
    have hp : 0 < s.src.len := by omega
    cases fuel with
    | zero =>
      refine ⟨fun h => by omega, fun _ => ?_⟩
      simp only [CBCEncrypter.loop, hp, if_true]
    | succ fuel =>
      have hx : (xorBytes s.c.blk (readN s.mem s.src.off bs)).length = bs := by
        simp [length_xorBytes, length_readN, hblk]
      have hc := s.c.ecb.crypt_length _ (by rw [hx, hbs])
      rw [hbs] at hc
      simp only [CBCEncrypter.loop, hp, if_true]
      rw [enc_iter bs s hpos hbs hblk hwork (by omega) (by omega)]
      simp only [Outcome.andThen]
      have := ih fuel
        ⟨⟨s.c.ecb, s.c.ecb.crypt (xorBytes s.c.blk (readN s.mem s.src.off bs)),
            xorBytes s.c.blk (readN s.mem s.src.off bs)⟩,
          writeN s.mem s.dst.off (s.c.ecb.crypt (xorBytes s.c.blk (readN s.mem s.src.off bs))),
          s.dst.drop bs, s.src.drop bs⟩ hbs hc hx
        (by simp only [Slice.drop]; omega) (by simp only [Slice.drop]; omega)
      exact ⟨fun h => this.1 (by omega), fun h => this.2 (by omega)⟩

theorem dec_xorLoop_runs (k : Nat) : ∀ (lo : Nat) (s : Machine CBCDecrypter),
    lo + k ≤ s.c.blk.length → lo + k ≤ s.src.len → lo + k ≤ s.c.work.length →
    lo + k ≤ s.dst.len →
    ∃ u, forLoop CBCDecrypter.xorStep k lo s = .returned u ∧ u.c.ecb = s.c.ecb ∧
      u.c.work = s.c.work ∧ u.c.blk.length = s.c.blk.length ∧ u.dst = s.dst ∧ u.src = s.src := by
  induction k with
  | zero =>
    intro lo s _ _ _ _
    exact ⟨s, rfl, rfl, rfl, rfl, rfl, rfl⟩
  | succ k ih =>
    intro lo s h1 h2 h3 h4
    have c1 : lo < s.src.len := by omega
    have c2 : lo < s.c.blk.length ∧ lo < s.c.work.length ∧ lo < s.dst.len := by omega
    simp only [forLoop, CBCDecrypter.xorStep, c1, c2, and_self, if_true, Outcome.andThen]
    obtain ⟨u, hu, e1, e2, e3, e4, e5⟩ := ih (lo + 1)
      { s with
        mem := Function.update s.mem (s.dst.off + lo) (bxor (s.c.blk.getD lo 0) (s.c.work.getD lo 0))
        c := { s.c with blk := s.c.blk.set lo (s.mem (s.src.off + lo)) } }
      (by simp only [List.length_set]; omega) (by simp only; omega) (by simp only; omega)
      (by simp only; omega)
    refine ⟨u, hu, e1, e2, ?_, e4, e5⟩
    rw [e3]
    simp only [List.length_set]

theorem dec_iter_runs (bs : Nat) (s : Machine CBCDecrypter) (hpos : 0 < bs)
    (hbs : s.c.ecb.blockSize = bs) (hblk : s.c.blk.length = bs) (hwork : s.c.work.length = bs)
    (hsrc : bs ≤ s.src.len) (hdst : bs ≤ s.dst.len) :
    ∃ u, CBCDecrypter.iter bs s = .returned u ∧ u.c.ecb = s.c.ecb ∧ u.c.blk.length = bs ∧
      u.c.work.length = bs ∧ u.dst = s.dst.drop bs ∧ u.src = s.src.drop bs := by
  have hc := s.c.ecb.crypt_length (readN s.mem s.src.off bs) (by rw [length_readN, hbs])
  rw [hbs] at hc
  simp only [CBCDecrypter.iter, CBCDecrypter.ecbStep, hsrc, if_true]
  rw [ecb_oneBlock _ _ _ (by omega) (by rw [length_readN, hbs]) (by rw [hwork, hbs])]
  simp only [Outcome.andThen]
  obtain ⟨u, hu, e1, e2, e3, e4, e5⟩ := dec_xorLoop_runs bs 0
    { s with c := { s.c with work := s.c.ecb.crypt (readN s.mem s.src.off bs) } }
    (by simp only; omega) (by simp only; omega) (by simp only; omega) (by simp only; omega)
  rw [hu]
  have a1 : bs ≤ u.src.len := by rw [e5]; exact hsrc
  have a2 : bs ≤ u.dst.len := by rw [e4]; exact hdst
  simp only [advance, a1, a2, if_true]
  refine ⟨_, rfl, e1, ?_, ?_, ?_, ?_⟩
  · simp only; rw [e3]; exact hblk
  · simp only; rw [e2]; exact hc
  · simp only; rw [e4]
  · simp only; rw [e5]

/-- Under the contract the decrypter's loop returns after exactly `n` passes, whatever the
aliasing of `dst` and `src`, and keeps the engine well-formed. -/
theorem dec_loop_runs (bs : Nat) (hpos : 0 < bs) (n : Nat) :
    ∀ (fuel : Nat) (s : Machine CBCDecrypter),
      s.c.ecb.blockSize = bs → s.c.blk.length = bs → s.c.work.length = bs →
      s.src.len = n * bs → s.src.len ≤ s.dst.len →
      (n ≤ fuel → ∃ u, CBCDecrypter.loop bs fuel s = .returned u ∧
        u.c.ecb = s.c.ecb ∧ u.c.blk.length = bs ∧ u.c.work.length = bs) ∧
      (fuel < n → CBCDecrypter.loop bs fuel s = .outOfFuel) := by
  induction n with
  | zero =>
    intro fuel s _ hblk hwork hlen _
    have h0 : ¬ (0 < s.src.len) := by omega
    refine ⟨fun _ => ⟨s, ?_, rfl, hblk, hwork⟩, fun h => by omega⟩
    cases fuel <;> simp [CBCDecrypter.loop, h0]
  | succ n ih =>
    intro fuel s hbs hblk hwork hlen hdst
    have e : (n + 1) * bs = bs + n * bs := by ring
    rw [e] at hlen
    have hp : 0 < s.src.len := by omega
    cases fuel with
    | zero =>
      refine ⟨fun h => by omega, fun _ => ?_⟩
      simp only [CBCDecrypter.loop, hp, if_true]
    | succ fuel =>
      obtain ⟨t, ht, e1, e2, e3, e4, e5⟩ :=
        dec_iter_runs bs s hpos hbs hblk hwork (by omega) (by omega)
      simp only [CBCDecrypter.loop, hp, if_true]
      rw [ht]
      simp only [Outcome.andThen]
      have := ih fuel t (by rw [e1]; exact hbs) e2 e3
        (by rw [e5]; simp only [Slice.drop]; omega)
        (by rw [e4, e5]; simp only [Slice.drop]; omega)
      refine ⟨fun h => ?_, fun h => this.2 (by omega)⟩
      obtain ⟨u, hu, f1, f2, f3⟩ := this.1 (by omega)
      exact ⟨u, hu, f1.trans e1, f2, f3⟩

theorem main_of_usage_error (w : World) (cl : CommandLine)
    (h : cl.key = none ∨ 2 ≤ cl.positionals.length) :
    (main w cl).code = 1 ∧ (main w cl).stdout = [] := by
  unfold main
  cases hi : inputStream w cl.positionals with
  | error lines => exact ⟨rfl, rfl⟩
  | ok stream =>
    simp only
    cases hk : cl.key with
    | none => exact ⟨rfl, rfl⟩
    | some key =>
      exfalso
      rcases h with h | h
      · rw [hk] at h; exact Option.noConfusion h
      · match hp : cl.positionals, h, hi with
        | _ :: _ :: _, _, hi => simp [inputStream, hp] at hi

theorem fresh_enc_wellFormed (cphr : Block) (iv : List Byte) (hiv : iv.length = cphr.BlockSize) :
    (NewCBCEncrypter cphr iv).WellFormed cphr.BlockSize :=
  ⟨rfl, hiv, List.length_replicate _ _⟩

theorem fresh_dec_wellFormed (cphr : Block) (iv : List Byte) (hiv : iv.length = cphr.BlockSize) :
    (NewCBCDecrypter cphr iv).WellFormed cphr.BlockSize :=
  ⟨rfl, hiv, List.length_replicate _ _⟩

/-- Under the contract a call of the encrypter returns a well-formed engine, after exactly
`len(src) / bs` passes of the loop, whatever the aliasing of `dst` and `src`. -/
theorem enc_CryptBlocks_runs (c : CBCEncrypter) (mem : Mem) (dst src : Slice)
    (hpos : 0 < c.BlockSize) (hblk : c.blk.length = c.BlockSize)
    (hwork : c.work.length = c.BlockSize) (hsrc : src.len % c.BlockSize = 0)
    (hdst : src.len ≤ dst.len) :
    (∃ (c' : CBCEncrypter) (m : Mem), c.CryptBlocks mem dst src = .returned (c', m) ∧
      c'.WellFormed c.BlockSize) ∧
    (∃ u, CBCEncrypter.loop c.BlockSize (src.len / c.BlockSize) ⟨c, mem, dst, src⟩ = .returned u) ∧
    (∀ fuel, fuel < src.len / c.BlockSize →
      CBCEncrypter.loop c.BlockSize fuel ⟨c, mem, dst, src⟩ = .outOfFuel) := by
  have h0 : c.BlockSize ≠ 0 := by omega
  have h1 : ¬ (src.len % c.BlockSize ≠ 0) := by simp [hsrc]
  have h2 : ¬ (dst.len < src.len) := by omega
  have hn := len_eq_div_mul src.len c.BlockSize hsrc
  have key := fun fuel => enc_loop_runs c.BlockSize hpos (src.len / c.BlockSize) fuel
    ⟨c, mem, dst, src⟩ rfl hblk hwork hn hdst
  refine ⟨?_, ?_, fun fuel hf => (key fuel).2 hf⟩
  · obtain ⟨u, hu, e1, e2, e3⟩ := (key src.len).1 (Nat.div_le_self _ _)
    refine ⟨u.c, u.mem, ?_, congrArg BlockMode.blockSize e1, e2, e3⟩
    simp only [CBCEncrypter.CryptBlocks, h0, h1, h2, if_false, hu, Outcome.map, Machine.seen]
  · obtain ⟨u, hu, _⟩ := (key (src.len / c.BlockSize)).1 (Nat.le_refl _)
    exact ⟨u, hu⟩

/-- Under the contract a call of the decrypter returns a well-formed engine, after exactly
`len(src) / bs` passes of the loop, whatever the aliasing of `dst` and `src`. -/
theorem dec_CryptBlocks_runs (c : CBCDecrypter) (mem : Mem) (dst src : Slice)
    (hpos : 0 < c.BlockSize) (hblk : c.blk.length = c.BlockSize)
    (hwork : c.work.length = c.BlockSize) (hsrc : src.len % c.BlockSize = 0)
    (hdst : src.len ≤ dst.len) :
    (∃ (c' : CBCDecrypter) (m : Mem), c.CryptBlocks mem dst src = .returned (c', m) ∧
      c'.WellFormed c.BlockSize) ∧
    (∃ u, CBCDecrypter.loop c.BlockSize (src.len / c.BlockSize) ⟨c, mem, dst, src⟩ = .returned u) ∧
    (∀ fuel, fuel < src.len / c.BlockSize →
      CBCDecrypter.loop c.BlockSize fuel ⟨c, mem, dst, src⟩ = .outOfFuel) := by
  have h0 : c.BlockSize ≠ 0 := by omega
  have h1 : ¬ (src.len % c.BlockSize ≠ 0) := by simp [hsrc]
  have h2 : ¬ (dst.len < src.len) := by omega
  have hn := len_eq_div_mul src.len c.BlockSize hsrc
  have key := fun fuel => dec_loop_runs c.BlockSize hpos (src.len / c.BlockSize) fuel
    ⟨c, mem, dst, src⟩ rfl hblk hwork hn hdst
  refine ⟨?_, ?_, fun fuel hf => (key fuel).2 hf⟩
  · obtain ⟨u, hu, e1, e2, e3⟩ := (key src.len).1 (Nat.div_le_self _ _)
    refine ⟨u.c, u.mem, ?_, congrArg BlockMode.blockSize e1, e2, e3⟩
    simp only [CBCDecrypter.CryptBlocks, h0, h1, h2, if_false, hu, Outcome.map, Machine.seen]
  · obtain ⟨u, hu, _⟩ := (key (src.len / c.BlockSize)).1 (Nat.le_refl _)
    exact ⟨u, hu⟩

theorem enc_loop_done (bs fuel : Nat) (s : Machine CBCEncrypter) (h : s.src.len = 0) :
    CBCEncrypter.loop bs fuel s = .returned s := by
  have h0 : ¬ (0 < s.src.len) := by omega
  cases fuel <;> simp [CBCEncrypter.loop, h0]

theorem dec_loop_done (bs fuel : Nat) (s : Machine CBCDecrypter) (h : s.src.len = 0) :
    CBCDecrypter.loop bs fuel s = .returned s := by
  have h0 : ¬ (0 < s.src.len) := by omega
  cases fuel <;> simp [CBCDecrypter.loop, h0]

/-- A call of the encrypter on an empty `src` returns and changes nothing. -/
theorem enc_CryptBlocks_empty (c : CBCEncrypter) (mem : Mem) (dst src : Slice)
    (hpos : 0 < c.BlockSize) (h : src.len = 0) :
    c.CryptBlocks mem dst src = .returned (c, mem) := by
  have h0 : c.BlockSize ≠ 0 := by omega
  have h1 : ¬ (src.len % c.BlockSize ≠ 0) := by simp [h]
  have h2 : ¬ (dst.len < src.len) := by omega
  simp only [CBCEncrypter.CryptBlocks, h0, h1, h2, if_false]
  rw [enc_loop_done _ _ _ h]
  rfl

/-- A call of the decrypter on an empty `src` returns and changes nothing. -/
theorem dec_CryptBlocks_empty (c : CBCDecrypter) (mem : Mem) (dst src : Slice)
    (hpos : 0 < c.BlockSize) (h : src.len = 0) :
    c.CryptBlocks mem dst src = .returned (c, mem) := by
  have h0 : c.BlockSize ≠ 0 := by omega
  have h1 : ¬ (src.len % c.BlockSize ≠ 0) := by simp [h]
  have h2 : ¬ (dst.len < src.len) := by omega
  simp only [CBCDecrypter.CryptBlocks, h0, h1, h2, if_false]
  rw [dec_loop_done _ _ _ h]
  rfl

/-- Whatever the aliasing of `dst` and `src`, the encrypter's loop over `n + 1` blocks ends
with `blk` equal to the block of memory it wrote last, block `n` of `dst`. -/
theorem enc_loop_last (bs : Nat) (hpos : 0 < bs) (n : Nat) :
    ∀ (fuel : Nat) (s : Machine CBCEncrypter),
      s.c.ecb.blockSize = bs → s.c.blk.length = bs → s.c.work.length = bs →
      s.src.len = (n + 1) * bs → s.src.len ≤ s.dst.len → n + 1 ≤ fuel →
      ∃ u, CBCEncrypter.loop bs fuel s = .returned u ∧
        u.c.blk = readN u.mem (s.dst.off + n * bs) bs := by
  induction n with
  | zero =>
    intro fuel s hbs hblk hwork hlen hdst hfuel
    obtain ⟨fuel, rfl⟩ : ∃ f, fuel = f + 1 := ⟨fuel - 1, by omega⟩
    have hx : (xorBytes s.c.blk (readN s.mem s.src.off bs)).length = bs := by
      simp [length_xorBytes, length_readN, hblk]
    have hc := s.c.ecb.crypt_length _ (by rw [hx, hbs])
    rw [hbs] at hc
    have hp : 0 < s.src.len := by omega
    simp only [CBCEncrypter.loop, hp, if_true]
    rw [enc_iter bs s hpos hbs hblk hwork (by omega) (by omega)]
    simp only [Outcome.andThen]
    rw [enc_loop_done _ _ _ (by simp only [Slice.drop]; omega)]
    refine ⟨_, rfl, ?_⟩
    simp only [Nat.zero_mul, Nat.add_zero]
    exact (readN_writeN_of_length _ _ _ _ hc).symm
  | succ n ih =>
    intro fuel s hbs hblk hwork hlen hdst hfuel
    have e : (n + 1 + 1) * bs = bs + (n + 1) * bs := by ring
    rw [e] at hlen
    obtain ⟨fuel, rfl⟩ : ∃ f, fuel = f + 1 := ⟨fuel - 1, by omega⟩
    have hx : (xorBytes s.c.blk (readN s.mem s.src.off bs)).length = bs := by
      simp [length_xorBytes, length_readN, hblk]
    have hc := s.c.ecb.crypt_length _ (by rw [hx, hbs])
    rw [hbs] at hc
    have hp : 0 < s.src.len := by omega
    simp only [CBCEncrypter.loop, hp, if_true]
    rw [enc_iter bs s hpos hbs hblk hwork (by omega) (by omega)]
    simp only [Outcome.andThen]
    obtain ⟨u, hu, hb⟩ := ih fuel
      ⟨⟨s.c.ecb, s.c.ecb.crypt (xorBytes s.c.blk (readN s.mem s.src.off bs)),
          xorBytes s.c.blk (readN s.mem s.src.off bs)⟩,
        writeN s.mem s.dst.off (s.c.ecb.crypt (xorBytes s.c.blk (readN s.mem s.src.off bs))),
        s.dst.drop bs, s.src.drop bs⟩ hbs hc hx
      (by simp only [Slice.drop]; omega) (by simp only [Slice.drop]; omega) (by omega)
    refine ⟨u, hu, ?_⟩
    rw [hb]
    have e2 : (s.dst.drop bs).off + n * bs = s.dst.off + (n + 1) * bs := by
      simp only [Slice.drop]; ring
    simp only [e2]

theorem block_readN (mem : Mem) (off bs n : Nat) :
    block (readN mem off ((n + 1) * bs)) bs n = readN mem (off + n * bs) bs := by
  have e : (n + 1) * bs = n * bs + bs := by ring
  simp only [block, e, drop_readN]
  exact List.take_of_length_le (by rw [length_readN])

/-- A well-formed encrypter's call on a non-empty aligned `src` returns, whatever the aliasing
of `dst` and `src`, with `blk` equal to the last block it wrote to `dst`. -/
theorem enc_CryptBlocks_last (c : CBCEncrypter) (mem : Mem) (dst src : Slice)
    (hpos : 0 < c.BlockSize) (hblk : c.blk.length = c.BlockSize)
    (hwork : c.work.length = c.BlockSize) (hsrc : src.len % c.BlockSize = 0)
    (hdst : src.len ≤ dst.len) (h0 : 0 < src.len) :
    ∃ (c' : CBCEncrypter) (m : Mem), c.CryptBlocks mem dst src = .returned (c', m) ∧
      c'.blk = block (readN m dst.off src.len) c.BlockSize (src.len / c.BlockSize - 1) := by
  have hn := len_eq_div_mul src.len c.BlockSize hsrc
  obtain ⟨k, hk⟩ : ∃ k, src.len / c.BlockSize = k + 1 := by
    refine ⟨src.len / c.BlockSize - 1, ?_⟩
    have : 0 < src.len / c.BlockSize :=
      Nat.div_pos (Nat.le_of_dvd h0 (Nat.dvd_of_mod_eq_zero hsrc)) hpos
    omega
  rw [hk] at hn
  have z0 : c.BlockSize ≠ 0 := by omega
  have z1 : ¬ (src.len % c.BlockSize ≠ 0) := by simp [hsrc]
  have z2 : ¬ (dst.len < src.len) := by omega
  have hf : k + 1 ≤ src.len := by rw [← hk]; exact Nat.div_le_self _ _
  obtain ⟨u, hu, hb⟩ := enc_loop_last c.BlockSize hpos k src.len ⟨c, mem, dst, src⟩ rfl hblk
    hwork hn hdst hf
  refine ⟨u.c, u.mem, ?_, ?_⟩
  · simp only [CBCEncrypter.CryptBlocks, z0, z1, z2, if_false, hu, Outcome.map, Machine.seen]
  · rw [hk, Nat.add_sub_cancel, hb]
    conv_rhs => rw [hn]
    exact (block_readN _ _ _ _).symm

/-- The process ends with code 2 when `OfbReader` gets an IV of 3 bytes for 16-byte blocks. -/
theorem main_ofb_short_iv :
    main toyWorld ofbShortLine = ⟨2, [], [.panic .ivLength]⟩ := rfl

/-- The process ends with code 2 when a `Read` on the reader panics. -/
theorem main_read_panics :
    main panicWorld cbcShortLine = ⟨2, [], [.panic .indexOutOfRange]⟩ := rfl

/-- The hand-built encrypter with an IV of 3 bytes for 4-byte blocks: the constructor returns,
and the first call on input panics at `c.blk[3]`, after three bytes of `work` were set. -/
theorem short_iv_call_panics :
    ∃ (c : CBCEncrypter) (m : Mem),
      (NewCBCEncrypter (toyBlock 4) [9, 9, 9]).CryptBlocks (memOf toyText) ⟨8, 8⟩ ⟨0, 8⟩
        = .panicked .indexOutOfRange (c, m) ∧
      c.blk = [9, 9, 9] ∧ c.work = [8, 11, 10, 0] :=
  ⟨_, _, rfl, by decide, by decide⟩

/-! ## The claims -/

/-- C1, round trip. For every block primitive whose `Decrypt` undoes its `Encrypt` on blocks of
`B = cphr.BlockSize > 0` bytes, every IV of `B` bytes and every plaintext `src` whose length is a
multiple of `B`: the encrypter built by `NewCBCEncrypter cphr iv` returns from `CryptBlocks`, and
the decrypter built by `NewCBCDecrypter cphr iv`, run on the ciphertext where the encrypter
wrote it (the first `len(src)` bytes of `dst`), returns and leaves in `dst2` exactly the
plaintext. `dst` may be `src` itself or lie apart from it (`SafeFor`), and so may `dst2`
with respect to the ciphertext. -/
theorem C1_round_trip (cphr : Block) (iv : List Byte) (mem : Mem) (dst src dst2 : Slice)
    (hB : 0 < cphr.BlockSize)
    (hinv : ∀ b : List Byte, b.length = cphr.BlockSize → cphr.Decrypt (cphr.Encrypt b) = b)
    (hiv : iv.length = cphr.BlockSize) (hsrc : src.len % cphr.BlockSize = 0)
    (hdst : src.len ≤ dst.len) (hal : dst.SafeFor src)
    (hdst2 : src.len ≤ dst2.len) (hal2 : dst2.SafeFor ⟨dst.off, src.len⟩) :
    ∃ (e : CBCEncrypter) (mem1 : Mem) (d : CBCDecrypter) (mem2 : Mem),
      (NewCBCEncrypter cphr iv).CryptBlocks mem dst src = .returned (e, mem1) ∧
      (NewCBCDecrypter cphr iv).CryptBlocks mem1 dst2 ⟨dst.off, src.len⟩ = .returned (d, mem2) ∧
      readN mem2 dst2.off src.len = src.bytes mem := by
  have hn := len_eq_div_mul src.len cphr.BlockSize hsrc
  have hlc := length_encChain_bytes cphr iv mem src hiv hsrc
  have hct : (Slice.mk dst.off src.len).bytes (writeN mem dst.off
      (encChain cphr.Encrypt cphr.BlockSize (src.len / cphr.BlockSize) iv (src.bytes mem)))
      = encChain cphr.Encrypt cphr.BlockSize (src.len / cphr.BlockSize) iv (src.bytes mem) :=
    readN_writeN_of_length _ _ _ _ hlc
  refine ⟨_, _, _, _, fresh_enc_CryptBlocks cphr iv mem dst src hB hiv hsrc hdst hal,
    fresh_dec_CryptBlocks cphr iv _ dst2 ⟨dst.off, src.len⟩ hB hiv hsrc hdst2 hal2, ?_⟩
  simp only [hct]
  rw [decChain_encChain cphr.Encrypt cphr.Decrypt cphr.BlockSize cphr.Encrypt_length hinv _ iv _ hiv
    (by rw [length_bytes]; exact hn)]
  exact readN_writeN_of_length _ _ _ _ (length_bytes src mem)

/-- C1 at the scenario of the spec on the toy primitive: 16-byte blocks, the IV
`"0123456789abcdef"`, 32 bytes of `0xAA`. -/
theorem C1_round_trip_witness :
    (0 < (toyBlock 16).BlockSize ∧
      (∀ b : List Byte, b.length = (toyBlock 16).BlockSize →
        (toyBlock 16).Decrypt ((toyBlock 16).Encrypt b) = b) ∧
      asciiIV.length = (toyBlock 16).BlockSize ∧
      (Slice.mk 0 32).len % (toyBlock 16).BlockSize = 0 ∧
      (Slice.mk 0 32).len ≤ (Slice.mk 32 32).len ∧ (Slice.mk 32 32).SafeFor (Slice.mk 0 32) ∧
      (Slice.mk 0 32).len ≤ (Slice.mk 64 32).len ∧
      (Slice.mk 64 32).SafeFor ⟨(Slice.mk 32 32).off, (Slice.mk 0 32).len⟩) ∧
    ∃ (e : CBCEncrypter) (mem1 : Mem) (d : CBCDecrypter) (mem2 : Mem),
      (NewCBCEncrypter (toyBlock 16) asciiIV).CryptBlocks (memOf aaText) ⟨32, 32⟩ ⟨0, 32⟩
        = .returned (e, mem1) ∧
      (NewCBCDecrypter (toyBlock 16) asciiIV).CryptBlocks mem1 ⟨64, 32⟩ ⟨32, 32⟩
        = .returned (d, mem2) ∧
      readN mem2 64 32 = (Slice.mk 0 32).bytes (memOf aaText) :=
  ⟨⟨by decide, fun b _ => toyBlock_inv 16 b, by decide, by decide, by decide, by decide,
      by decide, by decide⟩,
    C1_round_trip (toyBlock 16) asciiIV (memOf aaText) ⟨32, 32⟩ ⟨0, 32⟩ ⟨64, 32⟩ (by decide)
      (fun b _ => toyBlock_inv 16 b) (by decide) (by decide) (by decide) (by decide) (by decide)
      (by decide)⟩

/-- C2, encrypt recurrence. For every IV of `B` bytes and every plaintext of `n = len(src) / B`
blocks, a freshly constructed encrypter returns from `CryptBlocks`, and the blocks it wrote to
`dst` satisfy `c_i = Encrypt (c_{i-1} XOR p_i)`, where `c_{-1}` is the IV and `p_i` are the
blocks `src` held before the call (blocks are counted from 0). -/
theorem C2_encrypt_recurrence (cphr : Block) (iv : List Byte) (mem : Mem) (dst src : Slice)
    (hB : 0 < cphr.BlockSize) (hiv : iv.length = cphr.BlockSize)
    (hsrc : src.len % cphr.BlockSize = 0) (hdst : src.len ≤ dst.len) (hal : dst.SafeFor src) :
    ∃ (c' : CBCEncrypter) (mem' : Mem),
      (NewCBCEncrypter cphr iv).CryptBlocks mem dst src = .returned (c', mem') ∧
      ∀ i, i < src.len / cphr.BlockSize →
        block (readN mem' dst.off src.len) cphr.BlockSize i =
          cphr.Encrypt (xorBytes
            (if i = 0 then iv else block (readN mem' dst.off src.len) cphr.BlockSize (i - 1))
            (block (src.bytes mem) cphr.BlockSize i)) := by
  have hn := len_eq_div_mul src.len cphr.BlockSize hsrc
  refine ⟨_, _, fresh_enc_CryptBlocks cphr iv mem dst src hB hiv hsrc hdst hal, ?_⟩
  intro i hi
  rw [readN_writeN_of_length _ _ _ _ (length_encChain_bytes cphr iv mem src hiv hsrc)]
  exact block_encChain cphr.Encrypt cphr.BlockSize cphr.Encrypt_length _ iv _ i hiv
    (by rw [length_bytes]; exact hn) hi

/-- C2 on two 4-byte blocks, `dst` apart from `src`. -/
theorem C2_encrypt_recurrence_witness :
    (0 < (toyBlock 4).BlockSize ∧ toyIV.length = (toyBlock 4).BlockSize ∧
      (Slice.mk 0 8).len % (toyBlock 4).BlockSize = 0 ∧
      (Slice.mk 0 8).len ≤ (Slice.mk 8 8).len ∧ (Slice.mk 8 8).SafeFor (Slice.mk 0 8)) ∧
    ∃ (c' : CBCEncrypter) (mem' : Mem),
      (NewCBCEncrypter (toyBlock 4) toyIV).CryptBlocks (memOf toyText) ⟨8, 8⟩ ⟨0, 8⟩
        = .returned (c', mem') ∧
      ∀ i, i < 8 / 4 →
        block (readN mem' 8 8) 4 i =
          (toyBlock 4).Encrypt (xorBytes
            (if i = 0 then toyIV else block (readN mem' 8 8) 4 (i - 1))
            (block ((Slice.mk 0 8).bytes (memOf toyText)) 4 i)) :=
  ⟨⟨by decide, by decide, by decide, by decide, by decide⟩,
    C2_encrypt_recurrence (toyBlock 4) toyIV (memOf toyText) ⟨8, 8⟩ ⟨0, 8⟩ (by decide) (by decide)
      (by decide) (by decide) (by decide)⟩

/-- C3, decrypt formula. For every IV of `B` bytes and every ciphertext of `n = len(src) / B`
blocks, a freshly constructed decrypter returns from `CryptBlocks`, and the blocks it wrote to
`dst` are `o_i = Decrypt (c_i) XOR c_{i-1}`, where `c_{-1}` is the IV and `c_i` are the blocks
`src` held before the call: the previous ciphertext block, not the previous output block.
Proved for `dst` disjoint from `src` and for `dst = src` alike (`SafeFor`). -/
theorem C3_decrypt_formula (cphr : Block) (iv : List Byte) (mem : Mem) (dst src : Slice)
    (hB : 0 < cphr.BlockSize) (hiv : iv.length = cphr.BlockSize)
    (hsrc : src.len % cphr.BlockSize = 0) (hdst : src.len ≤ dst.len) (hal : dst.SafeFor src) :
    ∃ (c' : CBCDecrypter) (mem' : Mem),
      (NewCBCDecrypter cphr iv).CryptBlocks mem dst src = .returned (c', mem') ∧
      ∀ i, i < src.len / cphr.BlockSize →
        block (readN mem' dst.off src.len) cphr.BlockSize i =
          xorBytes (cphr.Decrypt (block (src.bytes mem) cphr.BlockSize i))
            (if i = 0 then iv else block (src.bytes mem) cphr.BlockSize (i - 1)) := by
  have hn := len_eq_div_mul src.len cphr.BlockSize hsrc
  refine ⟨_, _, fresh_dec_CryptBlocks cphr iv mem dst src hB hiv hsrc hdst hal, ?_⟩
  intro i hi
  rw [readN_writeN_of_length _ _ _ _ (length_decChain_bytes cphr iv mem src hiv hsrc),
    xorBytes_comm]
  exact block_decChain cphr.Decrypt cphr.BlockSize cphr.Decrypt_length _ iv _ i hiv
    (by rw [length_bytes]; exact hn) hi

/-- C3 on two 4-byte blocks, `dst` apart from `src`. -/
theorem C3_decrypt_formula_witness :
    (0 < (toyBlock 4).BlockSize ∧ toyIV.length = (toyBlock 4).BlockSize ∧
      (Slice.mk 0 8).len % (toyBlock 4).BlockSize = 0 ∧
      (Slice.mk 0 8).len ≤ (Slice.mk 8 8).len ∧ (Slice.mk 8 8).SafeFor (Slice.mk 0 8)) ∧
    ∃ (c' : CBCDecrypter) (mem' : Mem),
      (NewCBCDecrypter (toyBlock 4) toyIV).CryptBlocks (memOf toyText) ⟨8, 8⟩ ⟨0, 8⟩
        = .returned (c', mem') ∧
      ∀ i, i < 8 / 4 →
        block (readN mem' 8 8) 4 i =
          xorBytes ((toyBlock 4).Decrypt (block ((Slice.mk 0 8).bytes (memOf toyText)) 4 i))
            (if i = 0 then toyIV else block ((Slice.mk 0 8).bytes (memOf toyText)) 4 (i - 1)) :=
  ⟨⟨by decide, by decide, by decide, by decide, by decide⟩,
    C3_decrypt_formula (toyBlock 4) toyIV (memOf toyText) ⟨8, 8⟩ ⟨0, 8⟩ (by decide) (by decide)
      (by decide) (by decide) (by decide)⟩

/-- C4, in-place equals disjoint. For both engines, in any state with a chain register and a work
buffer of `bs > 0` bytes, and every block-aligned input `src`: the call with `dst = src` and
the call with a `dst` disjoint from `src` both return, end in the same engine state (chain
register included), and the bytes left in the shared buffer are the bytes written to the
separate `dst`. -/
theorem C4_in_place_equals_disjoint (bs : Nat) (e : CBCEncrypter) (d : CBCDecrypter)
    (mem : Mem) (dst src : Slice) (hpos : 0 < bs)
    (he : e.BlockSize = bs) (heblk : e.blk.length = bs) (hework : e.work.length = bs)
    (hd : d.BlockSize = bs) (hdblk : d.blk.length = bs) (hdwork : d.work.length = bs)
    (hsrc : src.len % bs = 0) (hdst : src.len ≤ dst.len) (hdis : dst.Disjoint src) :
    (∃ (e' : CBCEncrypter) (m1 m2 : Mem),
      e.CryptBlocks mem src src = .returned (e', m1) ∧
      e.CryptBlocks mem dst src = .returned (e', m2) ∧
      readN m1 src.off src.len = readN m2 dst.off src.len) ∧
    (∃ (d' : CBCDecrypter) (m1 m2 : Mem),
      d.CryptBlocks mem src src = .returned (d', m1) ∧
      d.CryptBlocks mem dst src = .returned (d', m2) ∧
      readN m1 src.off src.len = readN m2 dst.off src.len) := by
  subst he
  constructor
  · refine ⟨_, _, _,
      enc_CryptBlocks e mem src src hpos heblk hework hsrc (Nat.le_refl _) (Slice.SafeFor.same src),
      enc_CryptBlocks e mem dst src hpos heblk hework hsrc hdst (Slice.SafeFor.of_disjoint hdis), ?_⟩
    rw [readN_writeN_of_length _ _ _ _ (length_encChain_engine e mem src heblk hsrc),
      readN_writeN_of_length _ _ _ _ (length_encChain_engine e mem src heblk hsrc)]
  · rw [← hd] at hpos hdblk hdwork hsrc
    refine ⟨_, _, _,
      dec_CryptBlocks d mem src src hpos hdblk hdwork hsrc (Nat.le_refl _) (Slice.SafeFor.same src),
      dec_CryptBlocks d mem dst src hpos hdblk hdwork hsrc hdst (Slice.SafeFor.of_disjoint hdis), ?_⟩
    rw [readN_writeN_of_length _ _ _ _ (length_decChain_engine d mem src hdblk hsrc),
      readN_writeN_of_length _ _ _ _ (length_decChain_engine d mem src hdblk hsrc)]

/-- C4 on two 4-byte blocks with fresh engines. -/
theorem C4_in_place_equals_disjoint_witness :
    (0 < 4 ∧ (NewCBCEncrypter (toyBlock 4) toyIV).BlockSize = 4 ∧
      (NewCBCEncrypter (toyBlock 4) toyIV).blk.length = 4 ∧
      (NewCBCEncrypter (toyBlock 4) toyIV).work.length = 4 ∧
      (NewCBCDecrypter (toyBlock 4) toyIV).BlockSize = 4 ∧
      (NewCBCDecrypter (toyBlock 4) toyIV).blk.length = 4 ∧
      (NewCBCDecrypter (toyBlock 4) toyIV).work.length = 4 ∧
      (Slice.mk 0 8).len % 4 = 0 ∧ (Slice.mk 0 8).len ≤ (Slice.mk 8 8).len ∧
      (Slice.mk 8 8).Disjoint (Slice.mk 0 8)) ∧
    ((∃ (e' : CBCEncrypter) (m1 m2 : Mem),
      (NewCBCEncrypter (toyBlock 4) toyIV).CryptBlocks (memOf toyText) ⟨0, 8⟩ ⟨0, 8⟩
        = .returned (e', m1) ∧
      (NewCBCEncrypter (toyBlock 4) toyIV).CryptBlocks (memOf toyText) ⟨8, 8⟩ ⟨0, 8⟩
        = .returned (e', m2) ∧
      readN m1 0 8 = readN m2 8 8) ∧
    (∃ (d' : CBCDecrypter) (m1 m2 : Mem),
      (NewCBCDecrypter (toyBlock 4) toyIV).CryptBlocks (memOf toyText) ⟨0, 8⟩ ⟨0, 8⟩
        = .returned (d', m1) ∧
      (NewCBCDecrypter (toyBlock 4) toyIV).CryptBlocks (memOf toyText) ⟨8, 8⟩ ⟨0, 8⟩
        = .returned (d', m2) ∧
      readN m1 0 8 = readN m2 8 8)) :=
  ⟨⟨by decide, rfl, by decide, by decide, rfl, by decide, by decide, by decide, by decide,
      by decide⟩,
    C4_in_place_equals_disjoint 4 (NewCBCEncrypter (toyBlock 4) toyIV)
      (NewCBCDecrypter (toyBlock 4) toyIV) (memOf toyText) ⟨8, 8⟩ ⟨0, 8⟩ (by decide) rfl
      (by decide) (by decide) rfl (by decide) (by decide) (by decide) (by decide) (by decide)⟩

/-- C5, misaligned input. For both engines with block size `bs > 0`, every `src` whose length is
not a multiple of `bs` and every `dst`: `CryptBlocks` panics with "input not full blocks"
(the spec's `InvalidLength`); the engine and the memory are as before the call. -/
theorem C5_input_not_full_blocks (bs : Nat) (e : CBCEncrypter) (d : CBCDecrypter)
    (mem : Mem) (dst src : Slice) (hpos : 0 < bs) (he : e.BlockSize = bs) (hd : d.BlockSize = bs)
    (hsrc : src.len % bs ≠ 0) :
    e.CryptBlocks mem dst src = .panicked .inputNotFullBlocks (e, mem) ∧
    d.CryptBlocks mem dst src = .panicked .inputNotFullBlocks (d, mem) := by
  have h0 : bs ≠ 0 := by omega
  constructor
  · simp only [CBCEncrypter.CryptBlocks, he, h0, hsrc, if_false, ne_eq, not_false_eq_true, if_true]
  · simp only [CBCDecrypter.CryptBlocks, hd, h0, hsrc, if_false, ne_eq, not_false_eq_true, if_true]

/-- C5 on a 7-byte input and 4-byte blocks. -/
theorem C5_input_not_full_blocks_witness :
    (0 < 4 ∧ (NewCBCEncrypter (toyBlock 4) toyIV).BlockSize = 4 ∧
      (NewCBCDecrypter (toyBlock 4) toyIV).BlockSize = 4 ∧ (Slice.mk 0 7).len % 4 ≠ 0) ∧
    ((NewCBCEncrypter (toyBlock 4) toyIV).CryptBlocks (memOf toyText) ⟨8, 8⟩ ⟨0, 7⟩
      = .panicked .inputNotFullBlocks (NewCBCEncrypter (toyBlock 4) toyIV, memOf toyText) ∧
    (NewCBCDecrypter (toyBlock 4) toyIV).CryptBlocks (memOf toyText) ⟨8, 8⟩ ⟨0, 7⟩
      = .panicked .inputNotFullBlocks (NewCBCDecrypter (toyBlock 4) toyIV, memOf toyText)) :=
  ⟨⟨by decide, rfl, rfl, by decide⟩,
    C5_input_not_full_blocks 4 (NewCBCEncrypter (toyBlock 4) toyIV)
      (NewCBCDecrypter (toyBlock 4) toyIV) (memOf toyText) ⟨8, 8⟩ ⟨0, 7⟩ (by decide) rfl rfl
      (by decide)⟩

/-- C6 fails as stated: with 4-byte blocks, a 7-byte `src` and a 3-byte `dst`, `len(dst) < len(src)`
holds and both engines panic with "input not full blocks", not with "output smaller than input":
the alignment check comes first. -/
theorem C6_counterexample :
    (Slice.mk 8 3).len < (Slice.mk 0 7).len ∧
    (NewCBCEncrypter (toyBlock 4) toyIV).CryptBlocks (memOf toyText) ⟨8, 3⟩ ⟨0, 7⟩
      = .panicked .inputNotFullBlocks (NewCBCEncrypter (toyBlock 4) toyIV, memOf toyText) ∧
    (NewCBCDecrypter (toyBlock 4) toyIV).CryptBlocks (memOf toyText) ⟨8, 3⟩ ⟨0, 7⟩
      = .panicked .inputNotFullBlocks (NewCBCDecrypter (toyBlock 4) toyIV, memOf toyText) ∧
    Panic.inputNotFullBlocks ≠ Panic.outputSmallerThanInput :=
  ⟨by decide, rfl, rfl, by decide⟩

/-- C6, amended. For both engines with block size `bs > 0`, every `src` whose length is a multiple
of `bs` and every `dst` with `len(dst) < len(src)`: `CryptBlocks` panics with "output smaller
than input" (the spec's `BufferTooSmall`); the engine and the memory are as before the call. -/
theorem C6_output_smaller_than_input (bs : Nat) (e : CBCEncrypter) (d : CBCDecrypter)
    (mem : Mem) (dst src : Slice) (hpos : 0 < bs) (he : e.BlockSize = bs) (hd : d.BlockSize = bs)
    (hsrc : src.len % bs = 0) (hdst : dst.len < src.len) :
    e.CryptBlocks mem dst src = .panicked .outputSmallerThanInput (e, mem) ∧
    d.CryptBlocks mem dst src = .panicked .outputSmallerThanInput (d, mem) := by
  have h0 : bs ≠ 0 := by omega
  constructor
  · simp only [CBCEncrypter.CryptBlocks, he, h0, hsrc, hdst, if_false, ne_eq, not_true_eq_false,
      if_true]
  · simp only [CBCDecrypter.CryptBlocks, hd, h0, hsrc, hdst, if_false, ne_eq, not_true_eq_false,
      if_true]

/-- C6, amended, on an 8-byte input, 4-byte blocks and a 7-byte output. -/
theorem C6_output_smaller_than_input_witness :
    (0 < 4 ∧ (NewCBCEncrypter (toyBlock 4) toyIV).BlockSize = 4 ∧
      (NewCBCDecrypter (toyBlock 4) toyIV).BlockSize = 4 ∧ (Slice.mk 0 8).len % 4 = 0 ∧
      (Slice.mk 8 7).len < (Slice.mk 0 8).len) ∧
    ((NewCBCEncrypter (toyBlock 4) toyIV).CryptBlocks (memOf toyText) ⟨8, 7⟩ ⟨0, 8⟩
      = .panicked .outputSmallerThanInput (NewCBCEncrypter (toyBlock 4) toyIV, memOf toyText) ∧
    (NewCBCDecrypter (toyBlock 4) toyIV).CryptBlocks (memOf toyText) ⟨8, 7⟩ ⟨0, 8⟩
      = .panicked .outputSmallerThanInput (NewCBCDecrypter (toyBlock 4) toyIV, memOf toyText)) :=
  ⟨⟨by decide, rfl, rfl, by decide, by decide⟩,
    C6_output_smaller_than_input 4 (NewCBCEncrypter (toyBlock 4) toyIV)
      (NewCBCDecrypter (toyBlock 4) toyIV) (memOf toyText) ⟨8, 7⟩ ⟨0, 8⟩ (by decide) rfl rfl
      (by decide) (by decide)⟩

/-- C7, atomic failure. For both engines: when `len(src)` is not a multiple of the block size, or
`len(dst) < len(src)`, `CryptBlocks` panics and the state it leaves is the state before the call:
the same engine (chain register `blk` and `work` buffer) and the same memory (every byte of
`dst`). -/
theorem C7_atomic_failure (bs : Nat) (e : CBCEncrypter) (d : CBCDecrypter)
    (mem : Mem) (dst src : Slice) (he : e.BlockSize = bs) (hd : d.BlockSize = bs)
    (h : src.len % bs ≠ 0 ∨ dst.len < src.len) :
    (∃ p, e.CryptBlocks mem dst src = .panicked p (e, mem)) ∧
    (∃ p, d.CryptBlocks mem dst src = .panicked p (d, mem)) := by
  constructor
  · simp only [CBCEncrypter.CryptBlocks, he]
    by_cases h0 : bs = 0
    · exact ⟨.divideByZero, by rw [if_pos h0]⟩
    · by_cases h1 : src.len % bs ≠ 0
      · exact ⟨.inputNotFullBlocks, by rw [if_neg h0, if_pos h1]⟩
      · have h2 : dst.len < src.len := by tauto
        exact ⟨.outputSmallerThanInput, by rw [if_neg h0, if_neg h1, if_pos h2]⟩
  · simp only [CBCDecrypter.CryptBlocks, hd]
    by_cases h0 : bs = 0
    · exact ⟨.divideByZero, by rw [if_pos h0]⟩
    · by_cases h1 : src.len % bs ≠ 0
      · exact ⟨.inputNotFullBlocks, by rw [if_neg h0, if_pos h1]⟩
      · have h2 : dst.len < src.len := by tauto
        exact ⟨.outputSmallerThanInput, by rw [if_neg h0, if_neg h1, if_pos h2]⟩

/-- C7 on an 8-byte input, 4-byte blocks and a 7-byte output. -/
theorem C7_atomic_failure_witness :
    ((NewCBCEncrypter (toyBlock 4) toyIV).BlockSize = 4 ∧
      (NewCBCDecrypter (toyBlock 4) toyIV).BlockSize = 4 ∧
      ((Slice.mk 0 8).len % 4 ≠ 0 ∨ (Slice.mk 8 7).len < (Slice.mk 0 8).len)) ∧
    ((∃ p, (NewCBCEncrypter (toyBlock 4) toyIV).CryptBlocks (memOf toyText) ⟨8, 7⟩ ⟨0, 8⟩
      = .panicked p (NewCBCEncrypter (toyBlock 4) toyIV, memOf toyText)) ∧
    (∃ p, (NewCBCDecrypter (toyBlock 4) toyIV).CryptBlocks (memOf toyText) ⟨8, 7⟩ ⟨0, 8⟩
      = .panicked p (NewCBCDecrypter (toyBlock 4) toyIV, memOf toyText))) :=
  ⟨⟨rfl, rfl, by decide⟩,
    C7_atomic_failure 4 (NewCBCEncrypter (toyBlock 4) toyIV)
      (NewCBCDecrypter (toyBlock 4) toyIV) (memOf toyText) ⟨8, 7⟩ ⟨0, 8⟩ rfl rfl (by decide)⟩

/-- C8 fails as stated: with 4-byte blocks and a 6-byte IV both constructors return an engine whose
chain register is the 6-byte IV, and the encrypter so built encrypts two blocks and returns. -/
theorem C8_counterexample :
    ([9, 9, 9, 9, 7, 7] : List Byte).length ≠ (toyBlock 4).BlockSize ∧
    (NewCBCEncrypter (toyBlock 4) [9, 9, 9, 9, 7, 7]).blk = [9, 9, 9, 9, 7, 7] ∧
    (NewCBCDecrypter (toyBlock 4) [9, 9, 9, 9, 7, 7]).blk = [9, 9, 9, 9, 7, 7] ∧
    (∃ (c : CBCEncrypter) (m : Mem),
      (NewCBCEncrypter (toyBlock 4) [9, 9, 9, 9, 7, 7]).CryptBlocks (memOf toyText) ⟨8, 8⟩ ⟨0, 8⟩
        = .returned (c, m) ∧
      readN m 8 8 = [14, 11, 12, 9, 2, 12, 14, 12] ∧ c.blk = [2, 12, 14, 12, 7, 7]) :=
  ⟨by decide, rfl, rfl, _, _, rfl, by decide, by decide⟩

/-- C8, amended. The constructors do not look at the length of the IV: for every block primitive
and every `iv`, of any length, `NewCBCEncrypter` and `NewCBCDecrypter` return an engine whose
chain register is a copy of `iv` and whose work buffer is `B` zero bytes. -/
theorem C8_construction_returns_engine (cphr : Block) (iv : List Byte) :
    NewCBCEncrypter cphr iv
      = { ecb := NewECBEncrypter cphr, blk := iv, work := List.replicate cphr.BlockSize 0 } ∧
    NewCBCDecrypter cphr iv
      = { ecb := NewECBDecrypter cphr, blk := iv, work := List.replicate cphr.BlockSize 0 } :=
  ⟨rfl, rfl⟩

/-- C9, decrypt error propagation. For every IV of `B` bytes and two block-aligned ciphertexts of
equal length that agree in every block other than block `i`: fresh decrypters (same primitive,
same IV) return on both, and their outputs agree in every block other than blocks `i` and
`i + 1`. -/
theorem C9_decrypt_error_propagation (cphr : Block) (iv : List Byte) (mem mem' : Mem)
    (dst src dst' src' : Slice) (i : Nat)
    (hB : 0 < cphr.BlockSize) (hiv : iv.length = cphr.BlockSize)
    (hsrc : src.len % cphr.BlockSize = 0) (hlen : src'.len = src.len)
    (hdst : src.len ≤ dst.len) (hdst' : src'.len ≤ dst'.len)
    (hal : dst.SafeFor src) (hal' : dst'.SafeFor src')
    (hag : ∀ j, j < src.len / cphr.BlockSize → j ≠ i →
      block (src.bytes mem) cphr.BlockSize j = block (src'.bytes mem') cphr.BlockSize j) :
    ∃ (d : CBCDecrypter) (m : Mem) (d' : CBCDecrypter) (m' : Mem),
      (NewCBCDecrypter cphr iv).CryptBlocks mem dst src = .returned (d, m) ∧
      (NewCBCDecrypter cphr iv).CryptBlocks mem' dst' src' = .returned (d', m') ∧
      ∀ j, j < src.len / cphr.BlockSize → j ≠ i → j ≠ i + 1 →
        block (readN m dst.off src.len) cphr.BlockSize j
          = block (readN m' dst'.off src.len) cphr.BlockSize j := by
  have hn := len_eq_div_mul src.len cphr.BlockSize hsrc
  have hsrc' : src'.len % cphr.BlockSize = 0 := by rw [hlen]; exact hsrc
  refine ⟨_, _, _, _, fresh_dec_CryptBlocks cphr iv mem dst src hB hiv hsrc hdst hal,
    fresh_dec_CryptBlocks cphr iv mem' dst' src' hB hiv hsrc' hdst' hal', ?_⟩
  intro j hj hji hji1
  have l1 := length_decChain_bytes cphr iv mem src hiv hsrc
  have l2 := length_decChain_bytes cphr iv mem' src' hiv hsrc'
  rw [hlen] at l2
  rw [readN_writeN_of_length _ _ _ _ l1]
  rw [hlen, readN_writeN_of_length _ _ _ _ l2]
  rw [block_decChain cphr.Decrypt cphr.BlockSize cphr.Decrypt_length _ iv _ j hiv
      (by rw [length_bytes]; exact hn) hj,
    block_decChain cphr.Decrypt cphr.BlockSize cphr.Decrypt_length _ iv _ j hiv
      (by rw [length_bytes, hlen]; exact hn) hj,
    hag j hj hji]
  by_cases h0 : j = 0
  · simp [h0]
  · simp only [h0, if_false]
    rw [hag (j - 1) (by omega) (by omega)]

/-- C9 on three 4-byte blocks that differ in block 0; one run is in place. -/
theorem C9_decrypt_error_propagation_witness :
    (0 < (toyBlock 4).BlockSize ∧ toyIV.length = (toyBlock 4).BlockSize ∧
      (Slice.mk 0 12).len % (toyBlock 4).BlockSize = 0 ∧
      (Slice.mk 0 12).len = (Slice.mk 0 12).len ∧
      (Slice.mk 0 12).len ≤ (Slice.mk 12 12).len ∧ (Slice.mk 0 12).len ≤ (Slice.mk 0 12).len ∧
      (Slice.mk 12 12).SafeFor (Slice.mk 0 12) ∧ (Slice.mk 0 12).SafeFor (Slice.mk 0 12) ∧
      (∀ j, j < (Slice.mk 0 12).len / (toyBlock 4).BlockSize → j ≠ 0 →
        block ((Slice.mk 0 12).bytes (memOf toyLong)) (toyBlock 4).BlockSize j
          = block ((Slice.mk 0 12).bytes (memOf toyLong2)) (toyBlock 4).BlockSize j)) ∧
    ∃ (d : CBCDecrypter) (m : Mem) (d' : CBCDecrypter) (m' : Mem),
      (NewCBCDecrypter (toyBlock 4) toyIV).CryptBlocks (memOf toyLong) ⟨12, 12⟩ ⟨0, 12⟩
        = .returned (d, m) ∧
      (NewCBCDecrypter (toyBlock 4) toyIV).CryptBlocks (memOf toyLong2) ⟨0, 12⟩ ⟨0, 12⟩
        = .returned (d', m') ∧
      ∀ j, j < 12 / 4 → j ≠ 0 → j ≠ 0 + 1 →
        block (readN m 12 12) 4 j = block (readN m' 0 12) 4 j :=
  ⟨⟨by decide, by decide, by decide, rfl, by decide, by decide, by decide, by decide, by decide⟩,
    C9_decrypt_error_propagation (toyBlock 4) toyIV (memOf toyLong) (memOf toyLong2)
      ⟨12, 12⟩ ⟨0, 12⟩ ⟨0, 12⟩ ⟨0, 12⟩ 0 (by decide) (by decide) (by decide) rfl (by decide)
      (by decide) (by decide) (by decide) (by decide)⟩

/-- C10, forward chaining propagation. For every block primitive whose `Encrypt` is injective on
blocks of `B` bytes, every IV of `B` bytes and two block-aligned plaintexts of equal length that
differ in block `i` and agree in every other block: fresh encrypters (same primitive, same IV)
return on both, and their outputs differ in every block from block `i` to the last. -/
theorem C10_forward_chaining (cphr : Block) (iv : List Byte) (mem mem' : Mem)
    (dst src dst' src' : Slice) (i : Nat)
    (hB : 0 < cphr.BlockSize)
    (hinj : ∀ a b : List Byte, a.length = cphr.BlockSize → b.length = cphr.BlockSize →
      cphr.Encrypt a = cphr.Encrypt b → a = b)
    (hiv : iv.length = cphr.BlockSize)
    (hsrc : src.len % cphr.BlockSize = 0) (hlen : src'.len = src.len)
    (hdst : src.len ≤ dst.len) (hdst' : src'.len ≤ dst'.len)
    (hal : dst.SafeFor src) (hal' : dst'.SafeFor src')
    (hdiff : block (src.bytes mem) cphr.BlockSize i ≠ block (src'.bytes mem') cphr.BlockSize i)
    (hag : ∀ j, j < src.len / cphr.BlockSize → j ≠ i →
      block (src.bytes mem) cphr.BlockSize j = block (src'.bytes mem') cphr.BlockSize j) :
    ∃ (e : CBCEncrypter) (m : Mem) (e' : CBCEncrypter) (m' : Mem),
      (NewCBCEncrypter cphr iv).CryptBlocks mem dst src = .returned (e, m) ∧
      (NewCBCEncrypter cphr iv).CryptBlocks mem' dst' src' = .returned (e', m') ∧
      ∀ j, i ≤ j → j < src.len / cphr.BlockSize →
        block (readN m dst.off src.len) cphr.BlockSize j
          ≠ block (readN m' dst'.off src.len) cphr.BlockSize j := by
  have hn := len_eq_div_mul src.len cphr.BlockSize hsrc
  have hsrc' : src'.len % cphr.BlockSize = 0 := by rw [hlen]; exact hsrc
  refine ⟨_, _, _, _, fresh_enc_CryptBlocks cphr iv mem dst src hB hiv hsrc hdst hal,
    fresh_enc_CryptBlocks cphr iv mem' dst' src' hB hiv hsrc' hdst' hal', ?_⟩
  intro j hij hj
  have l1 := length_encChain_bytes cphr iv mem src hiv hsrc
  have l2 := length_encChain_bytes cphr iv mem' src' hiv hsrc'
  rw [hlen] at l2
  rw [readN_writeN_of_length _ _ _ _ l1]
  rw [hlen, readN_writeN_of_length _ _ _ _ l2]
  have key := encChain_differ_from cphr.Encrypt cphr.BlockSize cphr.Encrypt_length hinj
    (src.len / cphr.BlockSize) iv (src.bytes mem) (src'.bytes mem') hiv
    (by rw [length_bytes]; exact hn) (by rw [length_bytes, hlen]; exact hn) i hag hdiff (j - i)
    (by omega)
  have e : i + (j - i) = j := by omega
  rw [e] at key
  exact key

/-- C10 on three 4-byte blocks that differ in block 0; one run is in place. -/
theorem C10_forward_chaining_witness :
    (0 < (toyBlock 4).BlockSize ∧
      (∀ a b : List Byte, a.length = (toyBlock 4).BlockSize → b.length = (toyBlock 4).BlockSize →
        (toyBlock 4).Encrypt a = (toyBlock 4).Encrypt b → a = b) ∧
      toyIV.length = (toyBlock 4).BlockSize ∧
      (Slice.mk 0 12).len % (toyBlock 4).BlockSize = 0 ∧
      (Slice.mk 0 12).len = (Slice.mk 0 12).len ∧
      (Slice.mk 0 12).len ≤ (Slice.mk 12 12).len ∧ (Slice.mk 0 12).len ≤ (Slice.mk 0 12).len ∧
      (Slice.mk 12 12).SafeFor (Slice.mk 0 12) ∧ (Slice.mk 0 12).SafeFor (Slice.mk 0 12) ∧
      block ((Slice.mk 0 12).bytes (memOf toyLong)) (toyBlock 4).BlockSize 0
        ≠ block ((Slice.mk 0 12).bytes (memOf toyLong2)) (toyBlock 4).BlockSize 0 ∧
      (∀ j, j < (Slice.mk 0 12).len / (toyBlock 4).BlockSize → j ≠ 0 →
        block ((Slice.mk 0 12).bytes (memOf toyLong)) (toyBlock 4).BlockSize j
          = block ((Slice.mk 0 12).bytes (memOf toyLong2)) (toyBlock 4).BlockSize j)) ∧
    ∃ (e : CBCEncrypter) (m : Mem) (e' : CBCEncrypter) (m' : Mem),
      (NewCBCEncrypter (toyBlock 4) toyIV).CryptBlocks (memOf toyLong) ⟨12, 12⟩ ⟨0, 12⟩
        = .returned (e, m) ∧
      (NewCBCEncrypter (toyBlock 4) toyIV).CryptBlocks (memOf toyLong2) ⟨0, 12⟩ ⟨0, 12⟩
        = .returned (e', m') ∧
      ∀ j, 0 ≤ j → j < 12 / 4 → block (readN m 12 12) 4 j ≠ block (readN m' 0 12) 4 j :=
  ⟨⟨by decide, fun a b _ _ h => toyBlock_inj 4 a b h, by decide, by decide, rfl, by decide,
      by decide, by decide, by decide, by decide, by decide⟩,
    C10_forward_chaining (toyBlock 4) toyIV (memOf toyLong) (memOf toyLong2)
      ⟨12, 12⟩ ⟨0, 12⟩ ⟨0, 12⟩ ⟨0, 12⟩ 0 (by decide) (fun a b _ _ h => toyBlock_inj 4 a b h)
      (by decide) (by decide) rfl (by decide) (by decide) (by decide) (by decide) (by decide)
      (by decide)⟩

/-- C11, usage errors. When no `--key` is given, or two or more positional arguments are given,
`main` ends the process with exit code 1 and nothing on standard output; when no `--key` is
given and the input stream was obtained (no positional argument, or one file that opens), it
prints "No key specified" and the usage text of the flags. -/
theorem C11_usage_errors (w : World) (cl : CommandLine)
    (h : cl.key = none ∨ 2 ≤ cl.positionals.length) :
    (main w cl).code = 1 ∧ (main w cl).stdout = [] ∧
    (cl.key = none → ∀ stream, inputStream w cl.positionals = .ok stream →
      (main w cl).stderr = [.noKey, .usage]) := by
  obtain ⟨h1, h2⟩ := main_of_usage_error w cl h
  refine ⟨h1, h2, fun hk stream hs => ?_⟩
  simp only [main, hs, hk]

/-- C11 on a command line with no flag and no file. -/
theorem C11_usage_errors_witness :
    (bareLine.key = none ∨ 2 ≤ bareLine.positionals.length) ∧
    ((main toyWorld bareLine).code = 1 ∧ (main toyWorld bareLine).stdout = [] ∧
      (bareLine.key = none → ∀ stream, inputStream toyWorld bareLine.positionals = .ok stream →
        (main toyWorld bareLine).stderr = [.noKey, .usage])) :=
  ⟨Or.inl rfl, C11_usage_errors toyWorld bareLine (Or.inl rfl)⟩

/-- C13 fails as stated. With 4-byte blocks, `src = buf[0:8]` holding `1..8` and
`dst = buf[1:9]`, the decrypter's call returns and its `blk` is `[9, 6, 12, 14]`, not the last
block `[5, 6, 7, 8]` that `src` held before the call: the writes to `dst` ran over the input
still to be read. And an encrypter built with a 6-byte IV returns from a call with `blk` of
6 bytes, not the 4-byte block `[2, 12, 14, 12]` it wrote last. -/
theorem C13_counterexample :
    (∃ (d' : CBCDecrypter) (m : Mem),
      toyDec.CryptBlocks (memOf toyText) ⟨1, 8⟩ ⟨0, 8⟩ = .returned (d', m) ∧
      d'.blk = [9, 6, 12, 14] ∧
      block ((Slice.mk 0 8).bytes (memOf toyText)) 4 (8 / 4 - 1) = [5, 6, 7, 8] ∧
      d'.blk ≠ block ((Slice.mk 0 8).bytes (memOf toyText)) 4 (8 / 4 - 1)) ∧
    (∃ (e' : CBCEncrypter) (m : Mem),
      (NewCBCEncrypter (toyBlock 4) [9, 9, 9, 9, 7, 7]).CryptBlocks (memOf toyText) ⟨8, 8⟩ ⟨0, 8⟩
        = .returned (e', m) ∧
      e'.blk = [2, 12, 14, 12, 7, 7] ∧
      block (readN m 8 8) 4 (8 / 4 - 1) = [2, 12, 14, 12] ∧
      e'.blk ≠ block (readN m 8 8) 4 (8 / 4 - 1)) :=
  ⟨⟨_, _, rfl, by decide, by decide, by decide⟩, ⟨_, _, rfl, by decide, by decide, by decide⟩⟩

/-- C13, amended. After construction `blk` is the IV. For engines with `blk` and `work` of
`bs > 0` bytes and a block-aligned `src`, the call returns. When `src` is not empty the
encrypter's `blk` is the last block it wrote to `dst`, whatever the aliasing of `dst` and
`src`; the decrypter's `blk` is the last block `src` held before the call when `dst` is `src`
itself, starts below it, or lies apart from it (`SafeFor`). When `src` is empty `blk` is
unchanged. -/
theorem C13_chain_register (bs : Nat) (cphr : Block) (iv : List Byte)
    (e : CBCEncrypter) (d : CBCDecrypter) (mem : Mem) (dst src : Slice)
    (hpos : 0 < bs) (he : e.WellFormed bs) (hd : d.WellFormed bs)
    (hsrc : src.len % bs = 0) (hdst : src.len ≤ dst.len) :
    (NewCBCEncrypter cphr iv).blk = iv ∧ (NewCBCDecrypter cphr iv).blk = iv ∧
    ∃ (e' : CBCEncrypter) (m1 : Mem) (d' : CBCDecrypter) (m2 : Mem),
      e.CryptBlocks mem dst src = .returned (e', m1) ∧
      d.CryptBlocks mem dst src = .returned (d', m2) ∧
      (0 < src.len → e'.blk = block (readN m1 dst.off src.len) bs (src.len / bs - 1)) ∧
      (0 < src.len → dst.SafeFor src →
        d'.blk = block (src.bytes mem) bs (src.len / bs - 1)) ∧
      (src.len = 0 → e'.blk = e.blk ∧ d'.blk = d.blk) := by
  obtain ⟨he1, he2, he3⟩ := he
  obtain ⟨hd1, hd2, hd3⟩ := hd
  have hpe : 0 < e.BlockSize := by rw [he1]; exact hpos
  have hpd : 0 < d.BlockSize := by rw [hd1]; exact hpos
  obtain ⟨⟨e', m1, r1, _⟩, _⟩ := enc_CryptBlocks_runs e mem dst src hpe (by rw [he1]; exact he2)
    (by rw [he1]; exact he3) (by rw [he1]; exact hsrc) hdst
  obtain ⟨⟨d', m2, s1, _⟩, _⟩ := dec_CryptBlocks_runs d mem dst src hpd (by rw [hd1]; exact hd2)
    (by rw [hd1]; exact hd3) (by rw [hd1]; exact hsrc) hdst
  refine ⟨rfl, rfl, e', m1, d', m2, r1, s1, ?_, ?_, ?_⟩
  · intro h0
    obtain ⟨e2, m3, r2, r3⟩ := enc_CryptBlocks_last e mem dst src hpe (by rw [he1]; exact he2)
      (by rw [he1]; exact he3) (by rw [he1]; exact hsrc) hdst h0
    rw [r1] at r2
    simp only [Outcome.returned.injEq, Prod.mk.injEq] at r2
    rw [r2.1, r2.2, ← he1]
    exact r3
  · intro h0 hal
    obtain ⟨d2, m3, r2, r3, _⟩ := dec_chain_register d mem dst src hpd (by rw [hd1]; exact hd2)
      (by rw [hd1]; exact hd3) (by rw [hd1]; exact hsrc) hdst hal
    rw [s1] at r2
    simp only [Outcome.returned.injEq, Prod.mk.injEq] at r2
    rw [r2.1, ← hd1]
    exact r3 h0
  · intro h0
    have r2 := enc_CryptBlocks_empty e mem dst src hpe h0
    have s2 := dec_CryptBlocks_empty d mem dst src hpd h0
    rw [r1] at r2
    rw [s1] at s2
    simp only [Outcome.returned.injEq, Prod.mk.injEq] at r2 s2
    rw [r2.1, s2.1]
    exact ⟨rfl, rfl⟩

/-- C13, amended, on two 4-byte blocks with fresh engines, in place. -/
theorem C13_chain_register_witness :
    (0 < 4 ∧ toyEnc.WellFormed 4 ∧ toyDec.WellFormed 4 ∧ (Slice.mk 0 8).len % 4 = 0 ∧
      (Slice.mk 0 8).len ≤ (Slice.mk 0 8).len) ∧
    ((NewCBCEncrypter (toyBlock 4) toyIV).blk = toyIV ∧
      (NewCBCDecrypter (toyBlock 4) toyIV).blk = toyIV ∧
      ∃ (e' : CBCEncrypter) (m1 : Mem) (d' : CBCDecrypter) (m2 : Mem),
        toyEnc.CryptBlocks (memOf toyText) ⟨0, 8⟩ ⟨0, 8⟩ = .returned (e', m1) ∧
        toyDec.CryptBlocks (memOf toyText) ⟨0, 8⟩ ⟨0, 8⟩ = .returned (d', m2) ∧
        (0 < 8 → e'.blk = block (readN m1 0 8) 4 (8 / 4 - 1)) ∧
        (0 < 8 → (Slice.mk 0 8).SafeFor (Slice.mk 0 8) →
          d'.blk = block ((Slice.mk 0 8).bytes (memOf toyText)) 4 (8 / 4 - 1)) ∧
        (8 = 0 → e'.blk = toyEnc.blk ∧ d'.blk = toyDec.blk)) :=
  ⟨⟨by decide, fresh_enc_wellFormed (toyBlock 4) toyIV (by decide),
      fresh_dec_wellFormed (toyBlock 4) toyIV (by decide), by decide, by decide⟩,
    C13_chain_register 4 (toyBlock 4) toyIV toyEnc toyDec (memOf toyText) ⟨0, 8⟩ ⟨0, 8⟩
      (by decide) (fresh_enc_wellFormed (toyBlock 4) toyIV (by decide))
      (fresh_dec_wellFormed (toyBlock 4) toyIV (by decide)) (by decide) (by decide)⟩

/-- C14, chunking independence. For both engines, in any state with `blk` and `work` of
`bs > 0` bytes: a call on the first `n1` blocks followed by a call of the same engine on the
next `n2` blocks ends in the same engine state and the same memory as one call on all
`n1 + n2` blocks, and the two outputs, put end to end, are the output of the one call.
`dOff` and `sOff` are the addresses of `dst` and `src`. -/
theorem C14_chunking_independence (bs n1 n2 : Nat) (e : CBCEncrypter) (d : CBCDecrypter)
    (mem : Mem) (dOff sOff : Nat) (hpos : 0 < bs)
    (he : e.WellFormed bs) (hd : d.WellFormed bs)
    (hal : dOff ≤ sOff ∨ sOff + (n1 + n2) * bs ≤ dOff) :
    (∃ (e1 : CBCEncrypter) (m1 : Mem) (e2 : CBCEncrypter) (m2 : Mem),
      e.CryptBlocks mem ⟨dOff, n1 * bs⟩ ⟨sOff, n1 * bs⟩ = .returned (e1, m1) ∧
      e1.CryptBlocks m1 ⟨dOff + n1 * bs, n2 * bs⟩ ⟨sOff + n1 * bs, n2 * bs⟩ = .returned (e2, m2) ∧
      e.CryptBlocks mem ⟨dOff, (n1 + n2) * bs⟩ ⟨sOff, (n1 + n2) * bs⟩ = .returned (e2, m2) ∧
      readN m1 dOff (n1 * bs) ++ readN m2 (dOff + n1 * bs) (n2 * bs)
        = readN m2 dOff ((n1 + n2) * bs)) ∧
    (∃ (d1 : CBCDecrypter) (m1 : Mem) (d2 : CBCDecrypter) (m2 : Mem),
      d.CryptBlocks mem ⟨dOff, n1 * bs⟩ ⟨sOff, n1 * bs⟩ = .returned (d1, m1) ∧
      d1.CryptBlocks m1 ⟨dOff + n1 * bs, n2 * bs⟩ ⟨sOff + n1 * bs, n2 * bs⟩ = .returned (d2, m2) ∧
      d.CryptBlocks mem ⟨dOff, (n1 + n2) * bs⟩ ⟨sOff, (n1 + n2) * bs⟩ = .returned (d2, m2) ∧
      readN m1 dOff (n1 * bs) ++ readN m2 (dOff + n1 * bs) (n2 * bs)
        = readN m2 dOff ((n1 + n2) * bs)) := by
  obtain ⟨he1, he2, he3⟩ := he
  obtain ⟨hd1, hd2, hd3⟩ := hd
  constructor
  · subst he1
    exact enc_chunking e mem dOff sOff n1 n2 hpos he2 he3 hal
  · subst hd1
    exact dec_chunking d mem dOff sOff n1 n2 hpos hd2 hd3 hal

/-- C14 on one 4-byte block followed by two, `dst` apart from `src`. -/
theorem C14_chunking_independence_witness :
    (0 < 4 ∧ toyEnc.WellFormed 4 ∧ toyDec.WellFormed 4 ∧ (12 ≤ 0 ∨ 0 + (1 + 2) * 4 ≤ 12)) ∧
    ((∃ (e1 : CBCEncrypter) (m1 : Mem) (e2 : CBCEncrypter) (m2 : Mem),
      toyEnc.CryptBlocks (memOf toyLong) ⟨12, 1 * 4⟩ ⟨0, 1 * 4⟩ = .returned (e1, m1) ∧
      e1.CryptBlocks m1 ⟨12 + 1 * 4, 2 * 4⟩ ⟨0 + 1 * 4, 2 * 4⟩ = .returned (e2, m2) ∧
      toyEnc.CryptBlocks (memOf toyLong) ⟨12, (1 + 2) * 4⟩ ⟨0, (1 + 2) * 4⟩ = .returned (e2, m2) ∧
      readN m1 12 (1 * 4) ++ readN m2 (12 + 1 * 4) (2 * 4) = readN m2 12 ((1 + 2) * 4)) ∧
    (∃ (d1 : CBCDecrypter) (m1 : Mem) (d2 : CBCDecrypter) (m2 : Mem),
      toyDec.CryptBlocks (memOf toyLong) ⟨12, 1 * 4⟩ ⟨0, 1 * 4⟩ = .returned (d1, m1) ∧
      d1.CryptBlocks m1 ⟨12 + 1 * 4, 2 * 4⟩ ⟨0 + 1 * 4, 2 * 4⟩ = .returned (d2, m2) ∧
      toyDec.CryptBlocks (memOf toyLong) ⟨12, (1 + 2) * 4⟩ ⟨0, (1 + 2) * 4⟩ = .returned (d2, m2) ∧
      readN m1 12 (1 * 4) ++ readN m2 (12 + 1 * 4) (2 * 4) = readN m2 12 ((1 + 2) * 4))) :=
  ⟨⟨by decide, fresh_enc_wellFormed (toyBlock 4) toyIV (by decide),
      fresh_dec_wellFormed (toyBlock 4) toyIV (by decide), by decide⟩,
    C14_chunking_independence 4 1 2 toyEnc toyDec (memOf toyLong) 12 0 (by decide)
      (fresh_enc_wellFormed (toyBlock 4) toyIV (by decide))
      (fresh_dec_wellFormed (toyBlock 4) toyIV (by decide)) (by decide)⟩

/-- C15, no failure under the contract. With a primitive of block size `B > 0` and an IV of
`B` bytes both constructors give a well-formed engine (`blk` and `work` of `B` bytes), and
every call of a well-formed engine with `len(src)` a multiple of `B` and `len(dst) ≥ len(src)`,
whatever the aliasing of `dst` and `src`, returns without a panic and leaves a well-formed
engine, so the same holds for the next call. The loop makes exactly `len(src) / B` passes:
it returns on that much fuel and on no less. -/
theorem C15_no_failure_under_contract (cphr : Block) (iv : List Byte)
    (hB : 0 < cphr.BlockSize) (hiv : iv.length = cphr.BlockSize) :
    (NewCBCEncrypter cphr iv).WellFormed cphr.BlockSize ∧
    (NewCBCDecrypter cphr iv).WellFormed cphr.BlockSize ∧
    (∀ (e : CBCEncrypter) (mem : Mem) (dst src : Slice), e.WellFormed cphr.BlockSize →
      src.len % cphr.BlockSize = 0 → src.len ≤ dst.len →
      (∃ (e' : CBCEncrypter) (m : Mem), e.CryptBlocks mem dst src = .returned (e', m) ∧
        e'.WellFormed cphr.BlockSize) ∧
      (∃ u, CBCEncrypter.loop cphr.BlockSize (src.len / cphr.BlockSize) ⟨e, mem, dst, src⟩
        = .returned u) ∧
      (∀ fuel, fuel < src.len / cphr.BlockSize →
        CBCEncrypter.loop cphr.BlockSize fuel ⟨e, mem, dst, src⟩ = .outOfFuel)) ∧
    (∀ (d : CBCDecrypter) (mem : Mem) (dst src : Slice), d.WellFormed cphr.BlockSize →
      src.len % cphr.BlockSize = 0 → src.len ≤ dst.len →
      (∃ (d' : CBCDecrypter) (m : Mem), d.CryptBlocks mem dst src = .returned (d', m) ∧
        d'.WellFormed cphr.BlockSize) ∧
      (∃ u, CBCDecrypter.loop cphr.BlockSize (src.len / cphr.BlockSize) ⟨d, mem, dst, src⟩
        = .returned u) ∧
      (∀ fuel, fuel < src.len / cphr.BlockSize →
        CBCDecrypter.loop cphr.BlockSize fuel ⟨d, mem, dst, src⟩ = .outOfFuel)) := by
  refine ⟨fresh_enc_wellFormed cphr iv hiv, fresh_dec_wellFormed cphr iv hiv, ?_, ?_⟩
  · intro e mem dst src ⟨w1, w2, w3⟩ hsrc hdst
    rw [← w1] at hB w2 w3 hsrc ⊢
    exact enc_CryptBlocks_runs e mem dst src hB w2 w3 hsrc hdst
  · intro d mem dst src ⟨w1, w2, w3⟩ hsrc hdst
    rw [← w1] at hB w2 w3 hsrc ⊢
    exact dec_CryptBlocks_runs d mem dst src hB w2 w3 hsrc hdst

/-- C15 on 4-byte blocks: a fresh encrypter run on two blocks with `dst` one byte above `src`,
two overlapping windows, returns a well-formed engine. -/
theorem C15_no_failure_under_contract_witness :
    (0 < (toyBlock 4).BlockSize ∧ toyIV.length = (toyBlock 4).BlockSize) ∧
    ∃ (e' : CBCEncrypter) (m : Mem),
      toyEnc.CryptBlocks (memOf toyText) ⟨1, 8⟩ ⟨0, 8⟩ = .returned (e', m) ∧
      e'.WellFormed (toyBlock 4).BlockSize :=
  ⟨⟨by decide, by decide⟩,
    ((C15_no_failure_under_contract (toyBlock 4) toyIV (by decide) (by decide)).2.2.1
      toyEnc (memOf toyText) ⟨1, 8⟩ ⟨0, 8⟩ (fresh_enc_wellFormed (toyBlock 4) toyIV (by decide))
      (by decide) (by decide)).1⟩

/-- C16, frame on `dst`. For both engines, a call that returns has changed no byte of memory
outside the first `len(src)` bytes of `dst`: every byte of `dst` at an index `≥ len(src)` is
as before, and when `dst` is disjoint from `src` the bytes of `src` are as before. -/
theorem C16_frame_on_dst (e e' : CBCEncrypter) (d d' : CBCDecrypter) (mem m1 m2 : Mem)
    (dst src : Slice)
    (he : e.CryptBlocks mem dst src = .returned (e', m1))
    (hd : d.CryptBlocks mem dst src = .returned (d', m2)) :
    (∀ a, (a < dst.off ∨ dst.off + src.len ≤ a) → m1 a = mem a ∧ m2 a = mem a) ∧
    (∀ i, src.len ≤ i → i < dst.len →
      m1 (dst.off + i) = mem (dst.off + i) ∧ m2 (dst.off + i) = mem (dst.off + i)) ∧
    (dst.Disjoint src → src.bytes m1 = src.bytes mem ∧ src.bytes m2 = src.bytes mem) := by
  have f1 := enc_CryptBlocks_frame e e' mem m1 dst src he
  have f2 := dec_CryptBlocks_frame d d' mem m2 dst src hd
  have hle := enc_CryptBlocks_returned_le e e' mem m1 dst src he
  refine ⟨fun a ha => ⟨f1 a ha, f2 a ha⟩, fun i hi _ => ⟨f1 _ (by omega), f2 _ (by omega)⟩, ?_⟩
  intro hdis
  unfold Slice.Disjoint at hdis
  constructor
  · simp only [Slice.bytes, readN]
    apply List.map_congr_left
    intro i hi
    have : i < src.len := by simpa using hi
    exact f1 _ (by omega)
  · simp only [Slice.bytes, readN]
    apply List.map_congr_left
    intro i hi
    have : i < src.len := by simpa using hi
    exact f2 _ (by omega)

/-- C16 on two 4-byte blocks and a `dst` of 12 bytes apart from `src`: both fresh engines
return, and the frame holds for the memories they leave. -/
theorem C16_frame_on_dst_witness :
    ∃ (e' : CBCEncrypter) (m1 : Mem) (d' : CBCDecrypter) (m2 : Mem),
      (toyEnc.CryptBlocks (memOf toyText) ⟨8, 12⟩ ⟨0, 8⟩ = .returned (e', m1) ∧
        toyDec.CryptBlocks (memOf toyText) ⟨8, 12⟩ ⟨0, 8⟩ = .returned (d', m2)) ∧
      ((∀ a, (a < 8 ∨ 8 + 8 ≤ a) → m1 a = memOf toyText a ∧ m2 a = memOf toyText a) ∧
        (∀ i, 8 ≤ i → i < 12 →
          m1 (8 + i) = memOf toyText (8 + i) ∧ m2 (8 + i) = memOf toyText (8 + i)) ∧
        ((Slice.mk 8 12).Disjoint (Slice.mk 0 8) →
          (Slice.mk 0 8).bytes m1 = (Slice.mk 0 8).bytes (memOf toyText) ∧
          (Slice.mk 0 8).bytes m2 = (Slice.mk 0 8).bytes (memOf toyText))) :=
  ⟨_, _, _, _,
    ⟨fresh_enc_CryptBlocks (toyBlock 4) toyIV (memOf toyText) ⟨8, 12⟩ ⟨0, 8⟩ (by decide) (by decide)
        (by decide) (by decide) (by decide),
      fresh_dec_CryptBlocks (toyBlock 4) toyIV (memOf toyText) ⟨8, 12⟩ ⟨0, 8⟩ (by decide) (by decide)
        (by decide) (by decide) (by decide)⟩,
    C16_frame_on_dst toyEnc _ toyDec _ (memOf toyText) _ _ ⟨8, 12⟩ ⟨0, 8⟩
      (fresh_enc_CryptBlocks (toyBlock 4) toyIV (memOf toyText) ⟨8, 12⟩ ⟨0, 8⟩ (by decide) (by decide)
        (by decide) (by decide) (by decide))
      (fresh_dec_CryptBlocks (toyBlock 4) toyIV (memOf toyText) ⟨8, 12⟩ ⟨0, 8⟩ (by decide) (by decide)
        (by decide) (by decide) (by decide))⟩

end AesDemo
